import Mathlib

/-!
Shallow embedding of the Rooster deployment controller (Go) for checking its
natural-language specification.

Modelling conventions:
* Go strings are modelled as `List Char` (`GoStr`), so that `strings.Split`,
  `strings.Join` and `strings.Contains` become structural list operations.
* Go `map[string]T` values are modelled as association lists built with an
  insert-or-overwrite operation (`mapPut`); iteration order is the insertion
  order of this determinisation (Go leaves map iteration order unspecified).
* Go functions that can panic (index out of range, failed interface type
  assertion) are modelled with `Option`, `none` standing for the panic.
* Kubernetes RPCs are abstracted as oracle parameters (functions passed to the
  embedded definitions); the cluster-side node lists and patch outcomes are
  inputs, and the embedded functions record the calls they would issue.
* `core_v1.Node` is projected to its only used field, the name (`GoNode`).
-/

namespace Rooster

/-- Go strings, modelled structurally. -/
abbrev GoStr := List Char

/-- `strings.Contains s sub`: `sub` occurs as a contiguous substring of `s`. -/
def goContains (s sub : GoStr) : Bool :=
  decide (sub <:+: s)

/-- `strings.Join elems sep`. -/
def goJoin (elems : List GoStr) (sep : GoStr) : GoStr :=
  List.intercalate sep elems

/-- `strings.Split s sep` for a one-character separator `c`.  Always returns a
non-empty list; splitting the empty string yields `[[]]`, like Go. -/
def goSplitChar (c : Char) : GoStr → List GoStr
  | [] => [[]]
  | x :: xs =>
    match goSplitChar c xs with
    | [] => [[]]
    | h :: t => if x = c then [] :: h :: t else (x :: h) :: t

/-- `strings.ToLower` (ASCII inputs only are used by the program). -/
def goToLower (s : GoStr) : GoStr := s.map Char.toLower

/-- `strconv.ParseBool`. -/
def goParseBool (s : GoStr) : Option Bool :=
  if s ∈ ["1".toList, "t".toList, "T".toList, "TRUE".toList, "true".toList, "True".toList]
  then some true
  else if s ∈ ["0".toList, "f".toList, "F".toList, "FALSE".toList, "false".toList, "False".toList]
  then some false
  else none

/-- Go map assignment `m[k] = v`: overwrite in place, else append. -/
def mapPut {α β : Type} [DecidableEq α] (m : List (α × β)) (k : α) (v : β) : List (α × β) :=
  match m with
  | [] => [(k, v)]
  | (k', v') :: rest => if k' = k then (k, v) :: rest else (k', v') :: mapPut rest k v

/-- Go map lookup `m[k]` (presence-aware form `v, ok := m[k]`). -/
def mapGet? {α β : Type} [DecidableEq α] (m : List (α × β)) (k : α) : Option β :=
  match m with
  | [] => none
  | (k', v') :: rest => if k' = k then some v' else mapGet? rest k

/-- A `core_v1.Node`, projected to the only field the program reads. -/
structure GoNode where
  name : GoStr
deriving DecidableEq

/-- `utils.MakeNodeNames`: project a node list to its names. -/
def MakeNodeNames (nodeList : List GoNode) : List GoStr :=
  nodeList.map GoNode.name

/-- `utils.ConvertToNodeList`: wrap names into nodes with only the name set. -/
def ConvertToNodeList (nodes : List GoStr) : List GoNode :=
  nodes.map GoNode.mk

/-- `utils.ExtractUncommonNodes targetNodes canaryNodes`: keep the nodes of
`targetNodes` for which the name-indexed map built from `canaryNodes` yields a
node with empty name (the Go zero value, returned for absent keys — and also
stored for a canary node whose own name is empty). -/
def ExtractUncommonNodes (targetNodes canaryNodes : List GoNode) : List GoNode :=
  let markedNodes := canaryNodes.foldl (fun m n => mapPut m n.name n) []
  targetNodes.filter fun n => ((mapGet? markedNodes n.name).getD ⟨[]⟩).name = []

/-- One entry of the versioning cache (`utils.ProjectIdentifiableInfo`). -/
structure ProjectIdentifiableInfo where
  version : GoStr
  current : GoStr
  nodes : List GoStr
deriving DecidableEq

/-- `utils.ProjectInfo`: the body of the versioning cache. -/
structure ProjectInfo where
  project : GoStr
  info : List ProjectIdentifiableInfo
deriving DecidableEq

/-- `utils.CmData`: the decoded `Streamfile` payload. -/
structure CmData where
  data : ProjectInfo
deriving DecidableEq

/-- The zero value of `CmData`. -/
def emptyCmData : CmData := ⟨⟨[], []⟩⟩

/-- `utils.setStatus`. -/
def setStatus (prj vrs currentPrj currentVrs isCurrent : GoStr) : GoStr :=
  if prj = currentPrj then
    (if vrs = currentVrs then "true".toList else "false".toList)
  else isCurrent

/-- `utils.distributeNodesThroughVersions`: one-entry map re-assigning the
nodes of `currentInfo` after `nextVersion` claims `nextNodes`. -/
def distributeNodesThroughVersions (nextVersion : GoStr) (nextNodes : List GoNode)
    (currentInfo : ProjectIdentifiableInfo) : List (GoStr × List GoStr) :=
  let tempNodeNames := MakeNodeNames nextNodes
  let nodesWithDifferentversion := ConvertToNodeList tempNodeNames
  let currVersion := currentInfo.version
  let currNodes := currentInfo.nodes
  let nodesWithCurrVersion := ConvertToNodeList currNodes
  let targets :=
    if currVersion ≠ nextVersion then
      MakeNodeNames (ExtractUncommonNodes nodesWithCurrVersion nodesWithDifferentversion)
    else tempNodeNames
  [(currVersion ++ [','] ++ currentInfo.current, targets)]

/-- The loop body of `utils.makeDataFromProjectDetails`, recursing over the
iteration sequence of the `versionDetails` map.  `refPrj` is `ref[projectName]`
(the only key of `ref` the Go code ever touches).  `none` models the Go panic
`versionStatus[1]` when a key contains no comma (impossible for keys built by
`rewriteCMData`). -/
def makeDataLoop (action projectName projectVersion : GoStr) :
    List (GoStr × List GoStr) → GoStr → List ProjectIdentifiableInfo →
    Option (List ProjectIdentifiableInfo)
  | [], _, acc => some acc
  | (vk, nodes) :: rest, refPrj, acc =>
    match goSplitChar ',' vk with
    | vrs :: isCurrent :: _ =>
      if goContains refPrj vrs then
        makeDataLoop action projectName projectVersion rest refPrj acc
      else
        let cur :=
          if action = "scale-down".toList ∧ nodes.length ≠ 0 then isCurrent
          else setStatus projectName vrs projectName projectVersion isCurrent
        makeDataLoop action projectName projectVersion rest
          (goJoin [refPrj, vrs] ",".toList)
          (acc ++ [⟨vrs, cur, nodes⟩])
    | _ => none

/-- `utils.makeDataFromProjectDetails`. -/
def makeDataFromProjectDetails (versionDetails : List (GoStr × List GoStr))
    (action projectName projectVersion : GoStr) : Option ProjectInfo :=
  (makeDataLoop action projectName projectVersion versionDetails [] []).map
    fun inf => ⟨projectName, inf⟩

/-- The loop of `utils.rewriteCMData`, building the `versions` map. -/
def rewriteLoop (projectVersion : GoStr) (nodeResources : List GoNode) :
    List ProjectIdentifiableInfo → List (GoStr × List GoStr) → List (GoStr × List GoStr)
  | [], versions => versions
  | pii :: rest, versions =>
    if projectVersion = pii.version then
      rewriteLoop projectVersion nodeResources rest
        (mapPut versions (goJoin [pii.version, pii.current] ",".toList)
          (MakeNodeNames nodeResources))
    else
      let tempVersion := distributeNodesThroughVersions projectVersion nodeResources pii
      let versions1 := tempVersion.foldl (fun vs kv => mapPut vs kv.1 kv.2) versions
      let versions2 := mapPut versions1 (goJoin [projectVersion, "true".toList] ",".toList)
        (MakeNodeNames nodeResources)
      rewriteLoop projectVersion nodeResources rest versions2

/-- `utils.rewriteCMData`. -/
def rewriteCMData (action projectName projectVersion : GoStr)
    (nodeResources : List GoNode) (previousData : CmData) : Option ProjectInfo :=
  makeDataFromProjectDetails
    (rewriteLoop projectVersion nodeResources previousData.data.info [])
    action projectName projectVersion

/-- `utils.ComposeConfigMapData`, up to the final YAML serialisation: the
structured cache body that the Go code marshals into `data["Streamfile"]`. -/
def ComposeConfigMapData (action projectName projectVersion : GoStr)
    (nodeResources : List GoNode) (previousData : CmData) : Option ProjectInfo :=
  if previousData.data = (⟨[], []⟩ : ProjectInfo) then
    some ⟨projectName,
      [⟨projectVersion, "true".toList, MakeNodeNames nodeResources⟩]⟩
  else
    rewriteCMData action projectName projectVersion nodeResources previousData

/-- Number of cache entries whose `current` field is the string `"true"`. -/
def countCurrentTrue (pi : ProjectInfo) : Nat :=
  (pi.info.filter fun e => decide (e.current = "true".toList)).length

/-- The loop of `utils.SplitLabel`; `none` models the Go panic at `cL[1]`
(index out of range) when a label contains no `'='`. -/
def splitLabelLoop : List GoStr → List (GoStr × GoStr) → Option (List (GoStr × GoStr))
  | [], structuredLabel => some structuredLabel
  | l :: rest, structuredLabel =>
    match goSplitChar '=' l with
    | labelKey :: labelVal :: _ => splitLabelLoop rest (mapPut structuredLabel labelKey labelVal)
    | _ => none

/-- `utils.SplitLabel`. -/
def SplitLabel (labels : List GoStr) : Option (List (GoStr × GoStr)) :=
  splitLabelLoop labels []

/-- One element of the JSON-patch payload (`utils.patchStringValue`); the
`value` field is `none` when the Go value is `""` and hence omitted by
`omitempty` marshalling. -/
structure PatchStringValue where
  op : GoStr
  path : GoStr
  value : Option GoStr
deriving DecidableEq

/-- The node-label patch path root (`worker.labelPrefix`). -/
def labelPfx : GoStr := "/metadata/labels/".toList

/-- `utils.MakePatchData`, up to JSON serialisation: the payload list the Go
code marshals (marshalling of this struct cannot fail). -/
def MakePatchData (pathRoot op : GoStr) (keyVal : List (GoStr × GoStr)) : List PatchStringValue :=
  keyVal.map fun kv =>
    { op := op
      path := goJoin [pathRoot, kv.1] []
      value := if kv.2 = [] then none else some kv.2 }

/-- One dynamic Patch RPC issued by `worker.patchNodes`: the JSON-patch
operation, its payload, and the targeted nodes. -/
structure PatchCall where
  op : GoStr
  payload : List PatchStringValue
  nodes : List GoNode
deriving DecidableEq

/-- `worker.patchNodes`, with the dynamic client abstracted by the oracle
`patchErr` mapping an issued call to its error outcome. -/
def patchNodes (rolloutNodes : List GoNode) (operation : GoStr)
    (data : List (GoStr × GoStr)) (patchErr : PatchCall → Option GoStr) :
    PatchCall × Option GoStr :=
  let call : PatchCall :=
    { op := operation, payload := MakePatchData labelPfx operation data, nodes := rolloutNodes }
  (call, patchErr call)

/-- `worker.incrementalNodePatch`: remove the control label from the nodes,
wait, then put it back.  Returns the sequence of issued patch calls and the
function's error result; `none` models the `SplitLabel` panic on a control
label lacking `'='`. -/
def incrementalNodePatch (nodes : List GoNode) (controlLabel : GoStr)
    (ignoreNotFound : Bool) (patchErr : PatchCall → Option GoStr) :
    Option (List PatchCall × Option GoStr) :=
  match SplitLabel [controlLabel] with
  | none => none
  | some data =>
    let r1 := patchNodes nodes "remove".toList data patchErr
    if r1.2.isSome ∧ ¬ignoreNotFound then some ([r1.1], r1.2)
    else
      let r2 := patchNodes nodes "replace".toList data patchErr
      some ([r1.1, r2.1], r2.2)

/-- A DaemonSet `.status` map; the two counters are `int64` values and the Go
comparison is interface equality (absent keys compare as equal `nil`s). -/
abbrev DsStatus := List (GoStr × Int)

/-- `utils.CheckDaemonSetStatus`: `(ready, err)`. -/
def CheckDaemonSetStatus (dsStatus : Option DsStatus) : Bool × Option GoStr :=
  match dsStatus with
  | none => (false, some "daemonSet status was not retrieved".toList)
  | some m =>
    (decide (mapGet? m "desiredNumberScheduled".toList = mapGet? m "numberReady".toList), none)

/-- `worker.checkResourceStatus`: `(result, err)`.  For a DaemonSet the Go code
binds `ready, err := CheckDaemonSetStatus(status)` inside the switch case and
returns `(ready, err)` only when `err != nil`; otherwise control falls through
to `return true, err` where `err` is the outer (nil) named return. -/
def checkResourceStatus (kind : GoStr) (status : Option DsStatus) : Bool × Option GoStr :=
  if kind = "DaemonSet".toList then
    match CheckDaemonSetStatus status with
    | (ready, some e) => (ready, some e)
    | (_, none) => (true, none)
  else (true, none)

/-- A readiness-report row (`worker.Resource`, projected to the fields the
status loop reads). -/
structure ResourceRow where
  kind : GoStr
  name : GoStr
  ready : Bool
deriving DecidableEq

/-- The report loop of `worker.verifyResourcesStatus`, applied to the
`resourceReport` produced by `areResourcesReady`. -/
def verifyResourceReport (ignoreResources : Bool) (resourceReport : List ResourceRow) :
    Option GoStr :=
  if ignoreResources then none
  else if resourceReport.length = 0 then
    some "resources readiness could not be defined".toList
  else
    match resourceReport.find? (fun rs => !rs.ready) with
    | some rs => some ("issues encountered with the ".toList ++ rs.kind ++ " ".toList ++ rs.name)
    | none => none

/-- Lexicographic `≤` on Go strings: Mathlib's lexicographic order on
`List Char`, which agrees with Go's byte-wise string order (UTF-8 encoding
preserves the code-point order). -/
def lexLe (a b : GoStr) : Prop := a ≤ b

instance : DecidableRel lexLe := fun a b => inferInstanceAs (Decidable (a ≤ b))

instance : IsTrans GoStr lexLe := ⟨fun _ _ _ h1 h2 => le_trans h1 h2⟩

instance : IsTotal GoStr lexLe := ⟨fun a b => le_total a b⟩

instance : IsAntisymm GoStr lexLe := ⟨fun _ _ h1 h2 => le_antisymm h1 h2⟩

/-- Lexicographic sort of a string list — the result of Go's
`sort.Slice(ns, func(i, j) { return ns[i] < ns[j] })`: the sorted permutation,
which is unique because equal strings are identical values. -/
def sortStr (l : List GoStr) : List GoStr := l.insertionSort lexLe

/-- `worker.ExtractCurrentVersionDetails`: map each current-marked entry's
version to the comma-join of its nodes (later entries overwrite). -/
def ExtractCurrentVersionDetails (cmdata : CmData) : List (GoStr × GoStr) :=
  cmdata.data.info.foldl
    (fun vd pii =>
      if (goParseBool pii.current).getD false then
        mapPut vd pii.version (goJoin pii.nodes ",".toList)
      else vd)
    []

/-- The error message for multiple current versions. -/
def errMultipleCurrent (project : GoStr) : GoStr :=
  "No more than one version can be current for project ".toList ++ project

/-- The cache-drift error message. -/
def errCacheDrift : GoStr :=
  "versions from the cache and labels do not match. Cache drift detected".toList

/-- `worker.getCurrentVersion`, with the cluster abstracted by the oracle
`markedNodesOf` giving, per version, the names of the nodes carrying the label
`<labelPrefix>.<project>=<version>` (the `getMarkedNodes` result). -/
def getCurrentVersion (project : GoStr) (cmdata : CmData)
    (markedNodesOf : GoStr → List GoStr) : Except GoStr GoStr :=
  let vd := ExtractCurrentVersionDetails cmdata
  if vd.length > 1 then .error (errMultipleCurrent project)
  else
    let version := match vd with | [] => [] | (vrs, _) :: _ => vrs
    let nodes := match vd with | [] => [] | (_, n) :: _ => goSplitChar ',' n
    let markedNodes := markedNodesOf version
    if sortStr markedNodes = sortStr nodes then .ok version
    else .error errCacheDrift

/-- `math.Round (float64 m / 100)` for an integer `m`: round half away from
zero, exact for the integer magnitudes the program produces.  Both `if`
branches keep the division operands non-negative, where every integer
division convention agrees. -/
def goRound100 (m : Int) : Int :=
  if 0 ≤ m then (m + 50) / 100 else -((-m + 50) / 100)

/-- `worker.calBatchSize`: `(nodes, batchSize)`.  The sampler keeps Go's
`int` type; `none` models the panic of the slice expression
`nodeList.Items[:int(batchSize)]` when the rounded batch size falls outside
`[0, len]` — the negative side is reachable, since preflight accepts negative
samplers (see C8). -/
def calBatchSize (items : List GoNode) (canaryOrIncrement : Int) :
    Option (List GoNode × Int) :=
  if canaryOrIncrement > 100 then some ([], 0)
  else
    match items with
    | [] => some ([], 0)
    | [n] => some ([n], 1)
    | _ =>
      let batchSize := goRound100 (items.length * canaryOrIncrement)
      if batchSize < 0 ∨ (items.length : Int) < batchSize then none
      else some (items.take batchSize.toNat, batchSize)

/-- A dynamic (`unstructured`) value, as far as `ExtractConfigMapData`
inspects it: a string, a `map[string]interface{}`, or anything else. -/
inductive UVal where
  | str : GoStr → UVal
  | umap : List (GoStr × UVal) → UVal
  | other : UVal

/-- `utils.ExtractConfigMapData`, with YAML decoding abstracted as the
`unmarshal` parameter (the Go code discards `yaml.Unmarshal`'s error).
`none` models a panic: the type assertion `k8sObject["data"].(map[string]interface{})`
panics when the `data` key is absent (nil interface) or not a map, and the
`streamFile.(string)` assertion panics on a non-string `Streamfile`. -/
def ExtractConfigMapData (unmarshal : GoStr → CmData)
    (obj : List (GoStr × UVal)) : Option CmData :=
  match mapGet? obj "data".toList with
  | some (.umap dataContent) =>
    match mapGet? dataContent "Streamfile".toList with
    | none => some emptyCmData
    | some (.str s) => some (unmarshal s)
    | some _ => none
  | some _ => none
  | none => none

/-- `utils.SamplingErrs`: the per-sampler error table
(`ErrorDefinitions[true]` / `ErrorDefinitions[false]`). -/
structure SamplingErrs where
  sampler : GoStr
  errWhenZero : GoStr
  errWhenHigh : GoStr
deriving DecidableEq

/-- `main.verifyIncrementCanary`.  Note: when the guard
`sampler == 0 || sampler >= 100` fails — including for negative samplers — the
function returns `nil`. -/
def verifyIncrementCanary (sampler : Int) (s : GoStr) : Option GoStr :=
  let samplerType := goToLower s
  let incrementErr : SamplingErrs :=
    ⟨"increment".toList,
     "please indicate the rollout increment".toList,
     "the increment cannot be equal or superior to 100".toList⟩
  let canaryErr : SamplingErrs :=
    ⟨"canary".toList,
     "please indicate the canary size".toList,
     "the canary cannot be equal or superior to 100".toList⟩
  let all : List SamplingErrs := [incrementErr, canaryErr]
  if sampler = 0 ∨ sampler ≥ 100 then
    match all.find? (fun se => decide (se.sampler = samplerType)) with
    | some se => some (if sampler = 0 then se.errWhenZero else se.errWhenHigh)
    | none => none
  else none

/-- `main.validateOptionsByStrategy`. -/
def validateOptionsByStrategy (strategy : GoStr) (canary increment : Int) : Option GoStr :=
  if strategy = "canary".toList then verifyIncrementCanary canary "canary".toList
  else if strategy = "linear".toList then verifyIncrementCanary increment "increment".toList
  else some "please indicate a valid rollout strategy".toList

/-- The target/control-label fragment of `main.performPreflightCheck`:
the only validation the labels receive is a non-blank check. -/
def preflightLabelChecks (targetLabel canaryLabel : GoStr) : Option GoStr :=
  if targetLabel = [] then some "please indicate the target label".toList
  else if canaryLabel = [] then some "please indicate the canary label".toList
  else none

/-- A string without comma (cache version/flag fields as the program itself
writes them). -/
def commaFree (s : GoStr) : Prop := ',' ∉ s

/-- Number of entries in a list whose `current` field is `"true"`. -/
def countTrueL (l : List ProjectIdentifiableInfo) : Nat :=
  (l.filter fun e => decide (e.current = "true".toList)).length

/-- The `current` value `makeDataFromProjectDetails` writes for a decoded
entry `(vrs, isCurrent)` carrying `nodes` (the `cur` binding of its loop). -/
def emittedCur (action projectName projectVersion vrs isCurrent : GoStr)
    (nodes : List GoStr) : GoStr :=
  if action = "scale-down".toList ∧ nodes.length ≠ 0 then isCurrent
  else setStatus projectName vrs projectName projectVersion isCurrent

/-- Two node-name lists share no name. -/
def NodesDisjoint (l1 l2 : List GoStr) : Prop := ∀ n, ¬(n ∈ l1 ∧ n ∈ l2)

/-- The version field encoded in a `versions`-map key: the text before the
first comma. -/
def keyVersionField (vk : GoStr) : GoStr := vk.takeWhile (· ≠ ',')

/-- The text of a label before its first `'='`. -/
def labelKeyOf (l : GoStr) : GoStr := l.takeWhile (· ≠ '=')

/-- The text of a label between its first and second `'='` (to the end if
there is no second `'='`). -/
def labelValOf (l : GoStr) : GoStr :=
  ((l.dropWhile (· ≠ '=')).drop 1).takeWhile (· ≠ '=')

/-- The removal-phase call `incrementalNodePatch` issues for a control label
containing `'='`. -/
def removePatchCall (controlLabel : GoStr) (nodes : List GoNode) : PatchCall :=
  ⟨"remove".toList,
   MakePatchData labelPfx "remove".toList [(labelKeyOf controlLabel, labelValOf controlLabel)],
   nodes⟩

/-- The replacement-phase call `incrementalNodePatch` issues for a control
label containing `'='`. -/
def replacePatchCall (controlLabel : GoStr) (nodes : List GoNode) : PatchCall :=
  ⟨"replace".toList,
   MakePatchData labelPfx "replace".toList [(labelKeyOf controlLabel, labelValOf controlLabel)],
   nodes⟩

/-! ## Helper lemmas about the string and map models -/

theorem goContains_iff (s sub : GoStr) : goContains s sub = true ↔ sub <:+: s := by
  simp [goContains]

theorem goJoin_pair (a b sep : GoStr) : goJoin [a, b] sep = a ++ sep ++ b := by
  simp [goJoin, List.intercalate]

theorem goSplitChar_ne_nil (c : Char) (s : GoStr) : goSplitChar c s ≠ [] := by
  cases s with
  | nil => simp [goSplitChar]
  | cons x xs =>
    unfold goSplitChar
    cases h : goSplitChar c xs with
    | nil => simp
    | cons h t => by_cases hx : x = c <;> simp [hx]

theorem goSplitChar_head (c : Char) (s : GoStr) :
    ∃ t, goSplitChar c s = s.takeWhile (· ≠ c) :: t := by
  induction s with
  | nil => exact ⟨[], rfl⟩
  | cons x xs ih =>
    obtain ⟨t, ht⟩ := ih
    by_cases hx : x = c
    · refine ⟨xs.takeWhile (· ≠ c) :: t, ?_⟩
      unfold goSplitChar
      rw [ht]
      simp [hx, List.takeWhile]
    · refine ⟨t, ?_⟩
      unfold goSplitChar
      rw [ht]
      simp [hx, List.takeWhile]

theorem goSplitChar_no_sep (c : Char) (s : GoStr) (h : c ∉ s) :
    goSplitChar c s = [s] := by
  induction s with
  | nil => rfl
  | cons x xs ih =>
    have hx : ¬ x = c := fun he => h (he ▸ List.mem_cons_self x xs)
    have hxs : c ∉ xs := fun hm => h (List.mem_cons_of_mem x hm)
    unfold goSplitChar
    rw [ih hxs]
    simp [hx]

theorem goSplitChar_cons (c x : Char) (xs : GoStr) :
    goSplitChar c (x :: xs) =
      match goSplitChar c xs with
      | [] => [[]]
      | h :: t => if x = c then [] :: h :: t else (x :: h) :: t := rfl

theorem goSplitChar_append_cons (c : Char) (a b : GoStr) (h : c ∉ a) :
    goSplitChar c (a ++ c :: b) = a :: goSplitChar c b := by
  induction a with
  | nil =>
    simp only [List.nil_append]
    rw [goSplitChar_cons]
    cases hb : goSplitChar c b with
    | nil => exact absurd hb (goSplitChar_ne_nil c b)
    | cons hh tt => simp
  | cons x xs ih =>
    have hx : ¬ x = c := fun he => h (he ▸ List.mem_cons_self x xs)
    have hxs : c ∉ xs := fun hm => h (List.mem_cons_of_mem x hm)
    simp only [List.cons_append]
    rw [goSplitChar_cons, ih hxs]
    simp [hx]

theorem takeWhile_append_cons (c : Char) (a b : GoStr) :
    (a ++ c :: b).takeWhile (· ≠ c) = a.takeWhile (· ≠ c) := by
  induction a with
  | nil => simp
  | cons x xs ih =>
    simp only [List.cons_append, List.takeWhile_cons, ih]

theorem mapPut_mem {α β : Type} [DecidableEq α] {m : List (α × β)} {k : α} {v : β}
    {e : α × β} (h : e ∈ mapPut m k v) : e = (k, v) ∨ e ∈ m := by
  induction m with
  | nil => simpa [mapPut] using h
  | cons p rest ih =>
    unfold mapPut at h
    by_cases hp : p.1 = k
    · rw [if_pos hp] at h
      rcases List.mem_cons.1 h with h1 | h1
      · exact .inl h1
      · exact .inr (List.mem_cons_of_mem p h1)
    · rw [if_neg hp] at h
      rcases List.mem_cons.1 h with h1 | h1
      · exact .inr (h1 ▸ List.mem_cons_self p rest)
      · rcases ih h1 with h2 | h2
        · exact .inl h2
        · exact .inr (List.mem_cons_of_mem p h2)

theorem mapGet?_mem {α β : Type} [DecidableEq α] {m : List (α × β)} {k : α} {v : β}
    (h : mapGet? m k = some v) : (k, v) ∈ m := by
  induction m with
  | nil => simp [mapGet?] at h
  | cons p rest ih =>
    unfold mapGet? at h
    by_cases hp : p.1 = k
    · rw [if_pos hp] at h
      have : p = (k, v) := by
        cases p
        simp_all
      exact this ▸ List.mem_cons_self p rest
    · rw [if_neg hp] at h
      exact List.mem_cons_of_mem p (ih h)

theorem mapGet?_isSome_iff {α β : Type} [DecidableEq α] (m : List (α × β)) (k : α) :
    (mapGet? m k).isSome = true ↔ k ∈ m.map Prod.fst := by
  induction m with
  | nil => simp [mapGet?]
  | cons p rest ih =>
    unfold mapGet?
    by_cases hp : p.1 = k
    · simp [hp]
    · simp only [if_neg hp, List.map_cons, List.mem_cons, ih]
      constructor
      · exact fun h => .inr h
      · rintro (h | h)
        · exact absurd h.symm hp
        · exact h

theorem mapPut_keys_mem {α β : Type} [DecidableEq α] (m : List (α × β)) (k j : α) (v : β) :
    j ∈ (mapPut m k v).map Prod.fst ↔ j = k ∨ j ∈ m.map Prod.fst := by
  induction m with
  | nil => simp [mapPut]
  | cons p rest ih =>
    unfold mapPut
    by_cases hp : p.1 = k
    · rw [if_pos hp]
      simp only [List.map_cons, List.mem_cons, hp]
      tauto
    · rw [if_neg hp]
      simp only [List.map_cons, List.mem_cons, ih]
      tauto

theorem mapPut_nodupKeys {α β : Type} [DecidableEq α] {m : List (α × β)} (k : α) (v : β)
    (h : m.Pairwise (fun a b => a.1 ≠ b.1)) :
    (mapPut m k v).Pairwise (fun a b => a.1 ≠ b.1) := by
  induction m with
  | nil => simp [mapPut]
  | cons p rest ih =>
    rcases List.pairwise_cons.1 h with ⟨hp, hrest⟩
    by_cases hpk : p.1 = k
    · unfold mapPut
      rw [if_pos hpk]
      refine List.pairwise_cons.2 ⟨?_, hrest⟩
      intro b hb
      have := hp b hb
      rw [hpk] at this
      exact this
    · unfold mapPut
      rw [if_neg hpk]
      refine List.pairwise_cons.2 ⟨?_, ih hrest⟩
      intro b hb
      rcases mapPut_mem hb with h1 | h1
      · rw [h1]
        exact fun he => hpk he
      · exact hp b h1

/-! ## `ExtractUncommonNodes`: characterisation as a name filter -/

theorem buildMap_name_inv (B : List GoNode) (m : List (GoStr × GoNode))
    (hm : ∀ p ∈ m, GoNode.name p.2 = p.1) :
    ∀ p ∈ B.foldl (fun m n => mapPut m n.name n) m, GoNode.name p.2 = p.1 := by
  induction B generalizing m with
  | nil => exact hm
  | cons n B ih =>
    refine ih (mapPut m n.name n) ?_
    intro p hp
    rcases mapPut_mem hp with h1 | h1
    · rw [h1]
    · exact hm p h1

theorem buildMap_keys (B : List GoNode) (m : List (GoStr × GoNode)) (k : GoStr) :
    (mapGet? (B.foldl (fun m n => mapPut m n.name n) m) k).isSome = true ↔
      (mapGet? m k).isSome = true ∨ k ∈ MakeNodeNames B := by
  induction B generalizing m with
  | nil => simp [MakeNodeNames]
  | cons n B ih =>
    show (mapGet? (B.foldl _ (mapPut m n.name n)) k).isSome = true ↔ _
    rw [ih]
    have h1 : MakeNodeNames (n :: B) = n.name :: MakeNodeNames B := rfl
    rw [mapGet?_isSome_iff, mapPut_keys_mem, ← mapGet?_isSome_iff, h1]
    simp only [List.mem_cons]
    tauto

theorem extractUncommon_filter (A B : List GoNode) :
    ExtractUncommonNodes A B =
      A.filter fun n => decide (n.name = [] ∨ n.name ∉ MakeNodeNames B) := by
  unfold ExtractUncommonNodes
  refine List.filter_congr ?_
  intro n _
  rw [decide_eq_decide]
  set mm := B.foldl (fun m n => mapPut m n.name n) [] with hmm
  constructor
  · intro h
    cases hg : mapGet? mm n.name with
    | none =>
      right
      intro hmem
      have : (mapGet? mm n.name).isSome = true := by
        rw [buildMap_keys]
        exact .inr hmem
      rw [hg] at this
      simp at this
    | some nd =>
      left
      have hname : GoNode.name nd = n.name :=
        buildMap_name_inv B [] (by simp) _ (mapGet?_mem hg)
      rw [hg] at h
      simp only [Option.getD_some] at h
      rw [← hname, h]
  · intro h
    cases hg : mapGet? mm n.name with
    | none => simp [hg]
    | some nd =>
      have hname : GoNode.name nd = n.name :=
        buildMap_name_inv B [] (by simp) _ (mapGet?_mem hg)
      rcases h with h | h
      · simp only [hg, Option.getD_some]
        rw [hname, h]
      · exfalso
        apply h
        have : (mapGet? mm n.name).isSome = true := by rw [hg]; rfl
        rcases (buildMap_keys B [] n.name).1 this with h1 | h1
        · simp [mapGet?] at h1
        · exact h1

/-! ## Sorting: the drift comparison is a multiset comparison -/

theorem sortStr_eq_iff_perm (a b : List GoStr) : sortStr a = sortStr b ↔ a.Perm b := by
  constructor
  · intro h
    have p1 : (sortStr a).Perm a := List.perm_insertionSort lexLe a
    have p2 : (sortStr b).Perm b := List.perm_insertionSort lexLe b
    rw [← h] at p2
    exact p1.symm.trans p2
  · intro h
    exact @List.eq_of_perm_of_sorted GoStr lexLe _ _ _
      ((List.perm_insertionSort lexLe a).trans
        (h.trans (List.perm_insertionSort lexLe b).symm))
      (List.sorted_insertionSort lexLe a)
      (List.sorted_insertionSort lexLe b)

/-! ## Claim theorems: readiness probe (C3) -/

/-- C3: the claim states that for a DaemonSet the readiness verdict of
`checkResourceStatus` is true iff `.status.desiredNumberScheduled` equals
`.status.numberReady`.  The code computes that equality in
`CheckDaemonSetStatus` but then discards it: the `ready` variable is shadowed
inside the switch case and the function falls through to `return true, err`
with the nil outer error.  At the failing input (desired 2, ready 1) the
verdict is `true` although the counters differ; the nil-status error and the
other-kind and non-ready-report behaviours are as claimed. -/
theorem rooster_C3_daemonset_readiness_discarded :
    CheckDaemonSetStatus
        (some [("desiredNumberScheduled".toList, 2), ("numberReady".toList, 1)])
      = (false, none)
    ∧ checkResourceStatus "DaemonSet".toList
        (some [("desiredNumberScheduled".toList, 2), ("numberReady".toList, 1)])
      = (true, none)
    ∧ checkResourceStatus "DaemonSet".toList none
      = (false, some "daemonSet status was not retrieved".toList)
    ∧ checkResourceStatus "Service".toList (some []) = (true, none)
    ∧ verifyResourceReport false [⟨"DaemonSet".toList, "ds".toList, false⟩]
      = some ("issues encountered with the ".toList ++ "DaemonSet".toList
          ++ " ".toList ++ "ds".toList) :=
  ⟨rfl, rfl, rfl, rfl, rfl⟩

/-! ## Claim theorems: batch sizing (C5) -/

theorem natRound100_eq_round (m : ℕ) :
    (((m + 50) / 100 : ℕ) : ℤ) = round ((m : ℚ) / 100) := by
  rw [round_eq]
  have h1 : (m : ℚ) / 100 + 1 / 2 = ((m + 50 : ℕ) : ℚ) / ((100 : ℕ) : ℚ) := by
    push_cast
    ring
  have h2 : (0 : ℚ) ≤ ((m + 50 : ℕ) : ℚ) / ((100 : ℕ) : ℚ) := by positivity
  rw [h1, ← Int.natCast_floor_eq_floor h2, Nat.floor_div_nat, Nat.floor_natCast]

theorem goRound100_eq_round (m : ℤ) (hm : 0 ≤ m) :
    goRound100 m = round ((m : ℚ) / 100) := by
  obtain ⟨n, rfl⟩ := Int.eq_ofNat_of_zero_le hm
  unfold goRound100
  rw [if_pos hm]
  have h1 : ((n : ℤ) + 50) / 100 = (((n + 50) / 100 : ℕ) : ℤ) := by
    push_cast
    ring
  rw [h1, natRound100_eq_round]
  congr 1

theorem goRound100_nonneg {m : ℤ} (hm : 0 ≤ m) : 0 ≤ goRound100 m := by
  unfold goRound100
  rw [if_pos hm]
  omega

theorem goRound100_le {m L : ℤ} (hm : 0 ≤ m) (hle : m ≤ 100 * L) :
    goRound100 m ≤ L := by
  unfold goRound100
  rw [if_pos hm]
  omega

theorem calBatchSize_default (a b : GoNode) (rest : List GoNode) (pct : Int)
    (hle : pct ≤ 100) :
    calBatchSize (a :: b :: rest) pct
      = if goRound100 ((a :: b :: rest).length * pct) < 0
            ∨ ((a :: b :: rest).length : Int) < goRound100 ((a :: b :: rest).length * pct)
        then none
        else some ((a :: b :: rest).take (goRound100 ((a :: b :: rest).length * pct)).toNat,
            goRound100 ((a :: b :: rest).length * pct)) := by
  unfold calBatchSize
  rw [if_neg (by omega)]

/-- C5 counterexample: the claim asserts `pct = 0` yields batch size 0, but a
one-node list with `pct = 0` takes the `n = 1` branch and yields size 1 with
the node included. -/
theorem rooster_C5_counterexample :
    calBatchSize [⟨"n1".toList⟩] 0 = some ([⟨"n1".toList⟩], 1) := rfl

/-- C5 (amended): over the sampler's full `int` domain, `calBatchSize`
returns size 0 and no nodes when `pct > 100` or the list is empty; size 1
with the single node when `n = 1` (and `pct ≤ 100`); and, for `n > 1` and
`0 ≤ pct ≤ 100`, the rounding `round(n*pct/100)` of the percentage with the
first `size` elements — so `n ≥ 2` with `pct = 100` yields the whole list,
and `pct = 0` yields 0 except in the `n = 1` branch, which yields 1.  For
`n > 1` and a negative rounded size (reachable for negative samplers, which
preflight accepts) the slice expression `Items[:int(batchSize)]` panics,
modelled by `none`. -/
theorem rooster_C5_amended (items : List GoNode) (pct : Int) :
    (100 < pct → calBatchSize items pct = some ([], 0))
    ∧ (items = [] → calBatchSize items pct = some ([], 0))
    ∧ (∀ n, items = [n] → pct ≤ 100 → calBatchSize items pct = some ([n], 1))
    ∧ (1 < items.length → 0 ≤ pct → pct ≤ 100 →
        calBatchSize items pct
          = some (items.take (goRound100 (items.length * pct)).toNat,
              goRound100 (items.length * pct))
        ∧ goRound100 (items.length * pct) = round ((items.length * pct : ℚ) / 100))
    ∧ (1 < items.length → pct = 100 →
        calBatchSize items pct = some (items, (items.length : Int)))
    ∧ (1 < items.length → pct = 0 → calBatchSize items pct = some ([], 0))
    ∧ (1 < items.length → pct ≤ 100 → goRound100 (items.length * pct) < 0 →
        calBatchSize items pct = none) := by
  refine ⟨?_, ?_, ?_, ?_, ?_, ?_, ?_⟩
  · intro h
    unfold calBatchSize
    rw [if_pos h]
  · intro h
    subst h
    unfold calBatchSize
    by_cases h : 100 < pct
    · rw [if_pos h]
    · rw [if_neg h]
  · intro n h hle
    subst h
    unfold calBatchSize
    rw [if_neg (by omega)]
  · intro hlen hpos hle
    match items, hlen with
    | a :: b :: rest, _ =>
      have hm0 : (0 : ℤ) ≤ (a :: b :: rest).length * pct :=
        mul_nonneg (by positivity) hpos
      have hmle : ((a :: b :: rest).length : ℤ) * pct
          ≤ 100 * ((a :: b :: rest).length : ℤ) := by
        have h1 : ((a :: b :: rest).length : ℤ) * pct
            ≤ ((a :: b :: rest).length : ℤ) * 100 :=
          mul_le_mul_of_nonneg_left hle (by positivity)
        linarith
      constructor
      · rw [calBatchSize_default a b rest pct hle,
          if_neg (by
            push_neg
            exact ⟨goRound100_nonneg hm0, goRound100_le hm0 hmle⟩)]
      · rw [goRound100_eq_round _ hm0]
        congr 1
        push_cast
        ring
  · intro hlen hpct
    subst hpct
    match items, hlen with
    | a :: b :: rest, _ =>
      have hr : goRound100 ((a :: b :: rest).length * 100)
          = ((a :: b :: rest).length : Int) := by
        unfold goRound100
        rw [if_pos (by positivity)]
        omega
      rw [calBatchSize_default a b rest 100 (by omega), hr,
        if_neg (by omega)]
      rw [Int.toNat_natCast, List.take_length]
  · intro hlen hpct
    subst hpct
    match items, hlen with
    | a :: b :: rest, _ =>
      have hr : goRound100 ((a :: b :: rest).length * 0) = 0 := by
        unfold goRound100
        rw [if_pos (by simp)]
        simp
      rw [calBatchSize_default a b rest 0 (by omega), hr,
        if_neg (by omega)]
      rfl
  · intro hlen hle hneg
    match items, hlen with
    | a :: b :: rest, _ =>
      rw [calBatchSize_default a b rest pct hle, if_pos (Or.inl hneg)]

/-- C5 witness: at four nodes, `pct = 50` gives batch `[na, nb]` of size 2
and `pct = 100` gives the whole list of size 4; at ten nodes and sampler
`-5` (accepted by preflight) the rounded size is negative and the batch
sizer panics. -/
theorem rooster_C5_amended_witness :
    (1 < 4 ∧ (0 : Int) ≤ 50 ∧ (50 : Int) ≤ 100
      ∧ calBatchSize [⟨"na".toList⟩, ⟨"nb".toList⟩, ⟨"nc".toList⟩, ⟨"nd".toList⟩] 50
        = some ([⟨"na".toList⟩, ⟨"nb".toList⟩], 2))
    ∧ calBatchSize [⟨"na".toList⟩, ⟨"nb".toList⟩, ⟨"nc".toList⟩, ⟨"nd".toList⟩] 100
      = some ([⟨"na".toList⟩, ⟨"nb".toList⟩, ⟨"nc".toList⟩, ⟨"nd".toList⟩], 4)
    ∧ goRound100 ((List.replicate 10 (⟨"n".toList⟩ : GoNode)).length * (-5)) < 0
    ∧ calBatchSize (List.replicate 10 (⟨"n".toList⟩ : GoNode)) (-5) = none := by
  have h4 : (1 : Nat)
      < ([⟨"na".toList⟩, ⟨"nb".toList⟩, ⟨"nc".toList⟩, ⟨"nd".toList⟩] : List GoNode).length := by
    decide
  have h10 : (1 : Nat) < (List.replicate 10 (⟨"n".toList⟩ : GoNode)).length := by
    decide
  have hneg : goRound100 ((List.replicate 10 (⟨"n".toList⟩ : GoNode)).length * (-5)) < 0 := by
    decide
  refine ⟨⟨by omega, by omega, by omega, ?_⟩, ?_, hneg, ?_⟩
  · have h := (rooster_C5_amended
      [⟨"na".toList⟩, ⟨"nb".toList⟩, ⟨"nc".toList⟩, ⟨"nd".toList⟩] 50).2.2.2.1
      h4 (by omega) (by omega)
    rw [h.1]
    rfl
  · exact (rooster_C5_amended
      [⟨"na".toList⟩, ⟨"nb".toList⟩, ⟨"nc".toList⟩, ⟨"nd".toList⟩] 100).2.2.2.2.1 h4 rfl
  · exact (rooster_C5_amended (List.replicate 10 ⟨"n".toList⟩) (-5)).2.2.2.2.2.2
      h10 (by omega) hneg

/-! ## Claim theorems: ConfigMap extraction (C7) -/

/-- C7: the claim states that a ConfigMap without a `data` field, or whose
`data` lacks the `Streamfile` key, yields the empty cache with no error.  The
second half is what the code does, but a missing `data` key makes the type
assertion `k8sObject["data"].(map[string]interface{})` panic on a nil
interface (modelled by `none`); the `dataContent == nil` guard on the next
line is unreachable for that case.  The guard shows the graceful behaviour was
intended, so this is coded wrongly rather than specified wrongly. -/
theorem rooster_C7_missing_data_panics (unmarshal : GoStr → CmData) :
    ExtractConfigMapData unmarshal [] = none
    ∧ ExtractConfigMapData unmarshal
        [("metadata".toList, UVal.other)] = none
    ∧ ExtractConfigMapData unmarshal [("data".toList, UVal.umap [])] = some emptyCmData
    ∧ ExtractConfigMapData unmarshal
        [("data".toList, UVal.umap [("other".toList, UVal.str "x".toList)])]
      = some emptyCmData :=
  ⟨rfl, rfl, rfl, rfl⟩

/-! ## Claim theorems: rollout sampler validation (C8) -/

/-- C8 counterexample: the claim says preflight rejects exactly the samplers
outside the open interval (0,100); but a negative canary percentage is
accepted (the guard only tests `sampler == 0 || sampler >= 100`). -/
theorem rooster_C8_counterexample :
    validateOptionsByStrategy "canary".toList (-5) 0 = none
    ∧ ¬(0 < (-5 : Int) ∧ (-5 : Int) < 100) :=
  ⟨rfl, by omega⟩

/-- C8 (amended): for action rollout the strategy-matching sampler (canary for
strategy canary, increment for linear) is rejected exactly when it is 0 or at
least 100; consequently every accepted sampler is negative or lies strictly
between 0 and 100. -/
theorem rooster_C8_amended (canary increment : Int) :
    ((validateOptionsByStrategy "canary".toList canary increment).isSome
      ↔ (canary = 0 ∨ 100 ≤ canary))
    ∧ ((validateOptionsByStrategy "linear".toList canary increment).isSome
      ↔ (increment = 0 ∨ 100 ≤ increment))
    ∧ (validateOptionsByStrategy "canary".toList canary increment = none
        → canary < 0 ∨ (0 < canary ∧ canary < 100))
    ∧ (validateOptionsByStrategy "linear".toList canary increment = none
        → increment < 0 ∨ (0 < increment ∧ increment < 100)) := by
  have hc : ∀ s : Int, (verifyIncrementCanary s "canary".toList).isSome
      ↔ (s = 0 ∨ 100 ≤ s) := by
    intro s
    unfold verifyIncrementCanary
    by_cases h : s = 0 ∨ s ≥ 100
    · rw [if_pos h]
      exact iff_of_true rfl h
    · rw [if_neg h]
      simpa using h
  have hi : ∀ s : Int, (verifyIncrementCanary s "increment".toList).isSome
      ↔ (s = 0 ∨ 100 ≤ s) := by
    intro s
    unfold verifyIncrementCanary
    by_cases h : s = 0 ∨ s ≥ 100
    · rw [if_pos h]
      exact iff_of_true rfl h
    · rw [if_neg h]
      simpa using h
  have h1 : (validateOptionsByStrategy "canary".toList canary increment).isSome
      ↔ (canary = 0 ∨ 100 ≤ canary) := by
    unfold validateOptionsByStrategy
    rw [if_pos rfl]
    exact hc canary
  have h2 : (validateOptionsByStrategy "linear".toList canary increment).isSome
      ↔ (increment = 0 ∨ 100 ≤ increment) := by
    unfold validateOptionsByStrategy
    rw [if_neg (by decide), if_pos rfl]
    exact hi increment
  refine ⟨h1, h2, ?_, ?_⟩
  · intro h
    have : ¬(canary = 0 ∨ 100 ≤ canary) := by
      rw [← h1, h]
      simp
    omega
  · intro h
    have : ¬(increment = 0 ∨ 100 ≤ increment) := by
      rw [← h2, h]
      simp
    omega

/-- C8 witness: at canary 0 the canary strategy is rejected, at increment 40
the linear strategy is accepted. -/
theorem rooster_C8_amended_witness :
    (validateOptionsByStrategy "canary".toList 0 40).isSome = true
    ∧ (validateOptionsByStrategy "linear".toList 0 40).isSome = false := by
  constructor
  · exact (rooster_C8_amended 0 40).1.mpr (Or.inl rfl)
  · have h := (rooster_C8_amended 0 40).2.1
    have h2 : ¬((40 : Int) = 0 ∨ 100 ≤ (40 : Int)) := by omega
    have h3 := mt h.mp h2
    simpa using h3

/-! ## Claim theorems: uncommon-node extraction (C9) -/

/-- C9 counterexample: the claim says the returned nodes' names are disjoint
from the names of `B`.  A node named `""` is stored in the lookup map as the
sentinel the code uses for absence, so a target node named `""` is returned
even though `""` is among the names of `B`. -/
theorem rooster_C9_counterexample :
    ExtractUncommonNodes [⟨[]⟩] [⟨[]⟩] = [⟨[]⟩]
    ∧ ([] : GoStr) ∈ MakeNodeNames [(⟨[]⟩ : GoNode)] :=
  ⟨rfl, by decide⟩

/-- C9 (amended): `ExtractUncommonNodes A B` returns exactly the nodes of `A`
whose name is empty or does not appear among the names of `B`; consequently a
returned node with non-empty name never appears among the names of `B`. -/
theorem rooster_C9_amended (A B : List GoNode) :
    ExtractUncommonNodes A B
      = A.filter (fun n => decide (n.name = [] ∨ n.name ∉ MakeNodeNames B))
    ∧ (∀ n ∈ ExtractUncommonNodes A B, n.name ≠ [] → n.name ∉ MakeNodeNames B) := by
  refine ⟨extractUncommon_filter A B, ?_⟩
  intro n hn hne
  rw [extractUncommon_filter] at hn
  have h1 := List.of_mem_filter hn
  simp only [decide_eq_true_eq] at h1
  tauto

/-- C9 witness: with `A = [a, b]`, `B = [b]` only `a` is returned, and its
name is not a name of `B`. -/
theorem rooster_C9_amended_witness :
    ExtractUncommonNodes [⟨"a".toList⟩, ⟨"b".toList⟩] [⟨"b".toList⟩] = [⟨"a".toList⟩]
    ∧ "a".toList ∉ MakeNodeNames [(⟨"b".toList⟩ : GoNode)] := by
  constructor
  · rw [(rooster_C9_amended [⟨"a".toList⟩, ⟨"b".toList⟩] [⟨"b".toList⟩]).1]
    rfl
  · exact (rooster_C9_amended [⟨"a".toList⟩, ⟨"b".toList⟩] [⟨"b".toList⟩]).2
      ⟨"a".toList⟩ (by decide) (by decide)

/-! ## Claim theorems: label splitting (C10) -/

theorem goSplitChar_of_mem (c : Char) (l : GoStr) (h : c ∈ l) :
    goSplitChar c l
      = l.takeWhile (· ≠ c) :: goSplitChar c ((l.dropWhile (· ≠ c)).drop 1) := by
  induction l with
  | nil => cases h
  | cons x xs ih =>
    by_cases hx : x = c
    · subst hx
      rw [goSplitChar_cons]
      cases hb : goSplitChar x xs with
      | nil => exact absurd hb (goSplitChar_ne_nil x xs)
      | cons hh tt => simp [List.takeWhile_cons, List.dropWhile_cons, hb]
    · have hxs : c ∈ xs := by
        rcases List.mem_cons.1 h with h1 | h1
        · exact absurd h1.symm hx
        · exact h1
      rw [goSplitChar_cons, ih hxs]
      simp [List.takeWhile_cons, List.dropWhile_cons, hx]

theorem goSplitChar_mem_of_two (c : Char) (l : GoStr) (a b : GoStr) (t : List GoStr)
    (h : goSplitChar c l = a :: b :: t) : c ∈ l := by
  by_contra hc
  rw [goSplitChar_no_sep c l hc] at h
  cases h

theorem goSplitChar_two_fields (c : Char) (l : GoStr) (a b : GoStr) (t : List GoStr)
    (h : goSplitChar c l = a :: b :: t) :
    a = l.takeWhile (· ≠ c) ∧ b = ((l.dropWhile (· ≠ c)).drop 1).takeWhile (· ≠ c) := by
  have hc : c ∈ l := goSplitChar_mem_of_two c l a b t h
  rw [goSplitChar_of_mem c l hc] at h
  obtain ⟨t2, ht2⟩ := goSplitChar_head c ((l.dropWhile (· ≠ c)).drop 1)
  rw [ht2] at h
  exact ⟨(List.cons.injEq _ _ _ _ ▸ h).1.symm, by
    injection h with h1 h2
    injection h2 with h3 h4
    exact h3.symm⟩

theorem splitLabelLoop_entries :
    ∀ (labels : List GoStr) (acc m : List (GoStr × GoStr)),
      splitLabelLoop labels acc = some m →
      ∀ p ∈ m, p ∈ acc ∨ ∃ l ∈ labels, p.1 = labelKeyOf l ∧ p.2 = labelValOf l := by
  intro labels
  induction labels with
  | nil =>
    intro acc m hm p hp
    unfold splitLabelLoop at hm
    cases hm
    exact .inl hp
  | cons l rest ih =>
    intro acc m hm p hp
    unfold splitLabelLoop at hm
    cases hs : goSplitChar '=' l with
    | nil => exact absurd hs (goSplitChar_ne_nil '=' l)
    | cons a ts =>
      cases ts with
      | nil =>
        rw [hs] at hm
        cases hm
      | cons b t =>
        rw [hs] at hm
        rcases ih (mapPut acc a b) m hm p hp with h1 | h1
        · rcases mapPut_mem h1 with h2 | h2
          · obtain ⟨hka, hkb⟩ := goSplitChar_two_fields '=' l a b t hs
            right
            exact ⟨l, List.mem_cons_self l rest,
              by rw [h2]; exact hka ▸ rfl,
              by rw [h2]; exact hkb ▸ rfl⟩
          · exact .inl h2
        · obtain ⟨l', hl', hkv⟩ := h1
          exact .inr ⟨l', List.mem_cons_of_mem l hl', hkv⟩

theorem splitLabelLoop_total :
    ∀ (labels : List GoStr), (∀ l ∈ labels, '=' ∈ l) →
      ∀ acc, (splitLabelLoop labels acc).isSome = true := by
  intro labels
  induction labels with
  | nil => intro _ acc; rfl
  | cons l rest ih =>
    intro h acc
    have hl : '=' ∈ l := h l (List.mem_cons_self l rest)
    obtain ⟨t2, ht2⟩ := goSplitChar_head '=' ((l.dropWhile (· ≠ '=')).drop 1)
    unfold splitLabelLoop
    rw [goSplitChar_of_mem '=' l hl, ht2]
    exact ih (fun x hx => h x (List.mem_cons_of_mem l hx)) _

theorem SplitLabel_single (l : GoStr) (hl : '=' ∈ l) :
    SplitLabel [l] = some [(labelKeyOf l, labelValOf l)] := by
  obtain ⟨t2, ht2⟩ := goSplitChar_head '=' ((l.dropWhile (· ≠ '=')).drop 1)
  unfold SplitLabel splitLabelLoop
  rw [goSplitChar_of_mem '=' l hl, ht2]
  rfl

/-- C10: `SplitLabel` is total exactly on inputs whose every string contains
an `'='`: under that precondition it returns the map sending each label's text
before the first `'='` to the text between the first and second `'='`
(later labels overwriting earlier ones with the same key, and anything after a
second `'='` dropped); a single-label call yields that one pair.  A string
without `'='` reaches the unguarded `cL[1]` index-out-of-range panic
(modelled by `none`).  Preflight validates the target and control labels only
for non-blankness, so such a string passes preflight. -/
theorem rooster_C10_split_label_partiality :
    (∀ l : GoStr, '=' ∈ l → SplitLabel [l] = some [(labelKeyOf l, labelValOf l)])
    ∧ (∀ labels : List GoStr, (∀ l ∈ labels, '=' ∈ l) → (SplitLabel labels).isSome = true)
    ∧ (∀ (labels : List GoStr) (m : List (GoStr × GoStr)), SplitLabel labels = some m →
        ∀ p ∈ m, ∃ l ∈ labels, p.1 = labelKeyOf l ∧ p.2 = labelValOf l)
    ∧ (∀ l : GoStr, '=' ∉ l → SplitLabel [l] = none)
    ∧ (∀ t c : GoStr, t ≠ [] → c ≠ [] → preflightLabelChecks t c = none) := by
  refine ⟨?_, ?_, ?_, ?_, ?_⟩
  · exact SplitLabel_single
  · intro labels h
    exact splitLabelLoop_total labels h []
  · intro labels m hm p hp
    rcases splitLabelLoop_entries labels [] m hm p hp with h1 | h1
    · cases h1
    · exact h1
  · intro l hl
    unfold SplitLabel splitLabelLoop
    rw [goSplitChar_no_sep '=' l hl]
  · intro t c ht hc
    unfold preflightLabelChecks
    rw [if_neg ht, if_neg hc]

/-- C10 witness: `app=canary` splits into the pair `(app, canary)`; `nolabel`
has no `'='`, passes the preflight blank-check alongside a well-formed target
label, and makes `SplitLabel` hit the panic branch. -/
theorem rooster_C10_split_label_partiality_witness :
    ('=' ∈ "app=canary".toList)
    ∧ SplitLabel ["app=canary".toList] = some [("app".toList, "canary".toList)]
    ∧ ('=' ∉ "nolabel".toList)
    ∧ SplitLabel ["nolabel".toList] = none
    ∧ preflightLabelChecks "role=worker".toList "nolabel".toList = none := by
  refine ⟨by decide, ?_, by decide, ?_, ?_⟩
  · rw [rooster_C10_split_label_partiality.1 "app=canary".toList (by decide)]
    rfl
  · exact rooster_C10_split_label_partiality.2.2.2.1 "nolabel".toList (by decide)
  · exact rooster_C10_split_label_partiality.2.2.2.2 "role=worker".toList "nolabel".toList
      (by decide) (by decide)

/-! ## Claim theorems: two-phase node patch (C6) -/

/-- C6: for a control label containing `'='` (the shape every real label has;
a label without `'='` panics inside `SplitLabel`, see C10),
`incrementalNodePatch` first issues an `op=remove` patch of the control label
on the given nodes and then an `op=replace` patch carrying the label's
original value on the same nodes.  With `ignoreNotFound = true` a removal
error is swallowed and the function proceeds to the replacement phase; with
`ignoreNotFound = false` a removal error is returned and the replacement is
not issued; a replacement-phase error is always returned. -/
theorem rooster_C6_two_phase_patch (nodes : List GoNode) (controlLabel : GoStr)
    (ignoreNotFound : Bool) (patchErr : PatchCall → Option GoStr)
    (hl : '=' ∈ controlLabel) :
    incrementalNodePatch nodes controlLabel ignoreNotFound patchErr
      = some
        (if patchErr (removePatchCall controlLabel nodes) ≠ none ∧ ignoreNotFound = false
         then ([removePatchCall controlLabel nodes],
               patchErr (removePatchCall controlLabel nodes))
         else ([removePatchCall controlLabel nodes, replacePatchCall controlLabel nodes],
               patchErr (replacePatchCall controlLabel nodes)))
    ∧ (removePatchCall controlLabel nodes).op = "remove".toList
    ∧ (removePatchCall controlLabel nodes).nodes = nodes
    ∧ (replacePatchCall controlLabel nodes).op = "replace".toList
    ∧ (replacePatchCall controlLabel nodes).nodes = nodes
    ∧ (replacePatchCall controlLabel nodes).payload
        = [⟨"replace".toList, labelPfx ++ labelKeyOf controlLabel,
            if labelValOf controlLabel = [] then none
            else some (labelValOf controlLabel)⟩] := by
  refine ⟨?_, rfl, rfl, rfl, rfl, ?_⟩
  · unfold incrementalNodePatch
    rw [SplitLabel_single controlLabel hl]
    show (let r1 := patchNodes nodes "remove".toList
            [(labelKeyOf controlLabel, labelValOf controlLabel)] patchErr
          if r1.2.isSome ∧ ¬ignoreNotFound then some ([r1.1], r1.2)
          else
            let r2 := patchNodes nodes "replace".toList
              [(labelKeyOf controlLabel, labelValOf controlLabel)] patchErr
            some ([r1.1, r2.1], r2.2)) = _
    have hrm : patchNodes nodes "remove".toList
        [(labelKeyOf controlLabel, labelValOf controlLabel)] patchErr
        = (removePatchCall controlLabel nodes, patchErr (removePatchCall controlLabel nodes)) := rfl
    have hrp : patchNodes nodes "replace".toList
        [(labelKeyOf controlLabel, labelValOf controlLabel)] patchErr
        = (replacePatchCall controlLabel nodes, patchErr (replacePatchCall controlLabel nodes)) := rfl
    simp only [hrm, hrp]
    by_cases he : patchErr (removePatchCall controlLabel nodes) = none
    · have h1 : (patchErr (removePatchCall controlLabel nodes)).isSome = false := by
        rw [he]; rfl
      cases ignoreNotFound <;> simp [he, h1]
    · have h1 : (patchErr (removePatchCall controlLabel nodes)).isSome = true :=
        Option.ne_none_iff_isSome.mp he
      cases ignoreNotFound <;> simp [he, h1]
  · unfold replacePatchCall MakePatchData
    simp [goJoin, List.intercalate]

/-- C6 witness: with control label `app=canary`, one node, and a patch oracle
that fails the removal phase, `ignoreNotFound = true` still issues both
phases, while `ignoreNotFound = false` stops after the removal and surfaces
its error. -/
theorem rooster_C6_two_phase_patch_witness :
    ('=' ∈ "app=canary".toList)
    ∧ incrementalNodePatch [⟨"n1".toList⟩] "app=canary".toList true
        (fun c => if c.op = "remove".toList then some "boom".toList else none)
      = some ([removePatchCall "app=canary".toList [⟨"n1".toList⟩],
               replacePatchCall "app=canary".toList [⟨"n1".toList⟩]], none)
    ∧ incrementalNodePatch [⟨"n1".toList⟩] "app=canary".toList false
        (fun c => if c.op = "remove".toList then some "boom".toList else none)
      = some ([removePatchCall "app=canary".toList [⟨"n1".toList⟩]], some "boom".toList) := by
  refine ⟨by decide, ?_, ?_⟩
  · rw [(rooster_C6_two_phase_patch [⟨"n1".toList⟩] "app=canary".toList true
      (fun c => if c.op = "remove".toList then some "boom".toList else none) (by decide)).1]
    rfl
  · rw [(rooster_C6_two_phase_patch [⟨"n1".toList⟩] "app=canary".toList false
      (fun c => if c.op = "remove".toList then some "boom".toList else none) (by decide)).1]
    rfl

/-! ## Claim theorems: current-version reconciliation (C4) -/

theorem one_lt_length_of_two_mem {α : Type} {l : List α} {a b : α}
    (ha : a ∈ l) (hb : b ∈ l) (hab : a ≠ b) : 1 < l.length := by
  cases l with
  | nil => cases ha
  | cons x t =>
    cases t with
    | nil =>
      rw [List.mem_singleton] at ha hb
      exact absurd (ha.trans hb.symm) hab
    | cons y t2 => simp

/-- The fold that `ExtractCurrentVersionDetails` performs on the
current-marked entries. -/
def verFold (l : List ProjectIdentifiableInfo) (m : List (GoStr × GoStr)) :
    List (GoStr × GoStr) :=
  l.foldl (fun vd pii => mapPut vd pii.version (goJoin pii.nodes ",".toList)) m

theorem verFold_cons (pii : ProjectIdentifiableInfo) (l : List ProjectIdentifiableInfo)
    (m : List (GoStr × GoStr)) :
    verFold (pii :: l) m = verFold l (mapPut m pii.version (goJoin pii.nodes ",".toList)) :=
  rfl

theorem ecvd_aux (l : List ProjectIdentifiableInfo) :
    ∀ m : List (GoStr × GoStr),
      l.foldl
        (fun vd pii =>
          if (goParseBool pii.current).getD false then
            mapPut vd pii.version (goJoin pii.nodes ",".toList)
          else vd) m
      = verFold (l.filter fun pii => (goParseBool pii.current).getD false) m := by
  induction l with
  | nil => intro _; rfl
  | cons pii rest ih =>
    intro m
    rw [List.foldl_cons, List.filter_cons]
    by_cases h : (goParseBool pii.current).getD false = true
    · rw [h]
      simp only [if_true, ite_true]
      rw [verFold_cons]
      exact ih _
    · have hb : (goParseBool pii.current).getD false = false := by
        cases hx : (goParseBool pii.current).getD false
        · rfl
        · exact absurd hx h
      rw [hb]
      simp only [Bool.false_eq_true, if_false, ite_false]
      exact ih _

theorem ecvd_eq_verFold_filter (cmdata : CmData) :
    ExtractCurrentVersionDetails cmdata
      = verFold (cmdata.data.info.filter fun pii => (goParseBool pii.current).getD false) [] :=
  ecvd_aux cmdata.data.info []

theorem verFold_mem {l : List ProjectIdentifiableInfo} {m : List (GoStr × GoStr)}
    {e : GoStr × GoStr} (h : e ∈ verFold l m) :
    e ∈ m ∨ ∃ pii ∈ l, e.1 = pii.version := by
  induction l generalizing m with
  | nil => exact .inl h
  | cons pii rest ih =>
    rcases ih (m := mapPut m pii.version (goJoin pii.nodes ",".toList)) h with h1 | h1
    · rcases mapPut_mem h1 with h2 | h2
      · exact .inr ⟨pii, List.mem_cons_self pii rest, by rw [h2]⟩
      · exact .inl h2
    · obtain ⟨p, hp, hv⟩ := h1
      exact .inr ⟨p, List.mem_cons_of_mem pii hp, hv⟩

theorem verFold_keys (l : List ProjectIdentifiableInfo) (m : List (GoStr × GoStr)) (k : GoStr) :
    (mapGet? (verFold l m) k).isSome = true ↔
      (mapGet? m k).isSome = true ∨ k ∈ l.map ProjectIdentifiableInfo.version := by
  induction l generalizing m with
  | nil => simp [verFold]
  | cons pii rest ih =>
    show (mapGet? (verFold rest (mapPut m pii.version _)) k).isSome = true ↔ _
    rw [ih]
    rw [mapGet?_isSome_iff, mapPut_keys_mem, ← mapGet?_isSome_iff]
    simp only [List.map_cons, List.mem_cons]
    tauto

theorem verFold_nodup (l : List ProjectIdentifiableInfo) (m : List (GoStr × GoStr))
    (hm : m.Pairwise fun a b => a.1 ≠ b.1) :
    (verFold l m).Pairwise fun a b => a.1 ≠ b.1 := by
  induction l generalizing m with
  | nil => exact hm
  | cons pii rest ih => exact ih _ (mapPut_nodupKeys _ _ hm)

/-- More than one entry in the current-version map iff two current-marked
entries carry different versions. -/
theorem ecvd_length_gt_one_iff (cmdata : CmData) :
    1 < (ExtractCurrentVersionDetails cmdata).length ↔
      ∃ p1 ∈ cmdata.data.info, ∃ p2 ∈ cmdata.data.info,
        (goParseBool p1.current).getD false = true
        ∧ (goParseBool p2.current).getD false = true
        ∧ p1.version ≠ p2.version := by
  rw [ecvd_eq_verFold_filter]
  constructor
  · intro hlen
    cases hvd : verFold (cmdata.data.info.filter fun pii =>
        (goParseBool pii.current).getD false) [] with
    | nil =>
      rw [hvd] at hlen
      simp at hlen
    | cons e1 rest =>
      cases rest with
      | nil =>
        rw [hvd] at hlen
        simp at hlen
      | cons e2 t =>
        have hnd := verFold_nodup (cmdata.data.info.filter fun pii =>
          (goParseBool pii.current).getD false) [] (by simp)
        rw [hvd] at hnd
        have hne : e1.1 ≠ e2.1 :=
          (List.pairwise_cons.1 hnd).1 e2 (List.mem_cons_self e2 t)
        have h1 : e1 ∈ verFold (cmdata.data.info.filter fun pii =>
            (goParseBool pii.current).getD false) [] := by
          rw [hvd]
          exact List.mem_cons_self e1 _
        have h2 : e2 ∈ verFold (cmdata.data.info.filter fun pii =>
            (goParseBool pii.current).getD false) [] := by
          rw [hvd]
          exact List.mem_cons_of_mem e1 (List.mem_cons_self e2 t)
        rcases verFold_mem h1 with h1m | h1m
        · cases h1m
        rcases verFold_mem h2 with h2m | h2m
        · cases h2m
        obtain ⟨p1, hp1, hv1⟩ := h1m
        obtain ⟨p2, hp2, hv2⟩ := h2m
        rw [List.mem_filter] at hp1 hp2
        exact ⟨p1, hp1.1, p2, hp2.1, hp1.2, hp2.2, by
          rw [← hv1, ← hv2]
          exact hne⟩
  · rintro ⟨p1, hp1, p2, hp2, hc1, hc2, hne⟩
    have hk1 : p1.version ∈ (cmdata.data.info.filter fun pii =>
        (goParseBool pii.current).getD false).map ProjectIdentifiableInfo.version :=
      List.mem_map_of_mem _ (List.mem_filter.2 ⟨hp1, hc1⟩)
    have hk2 : p2.version ∈ (cmdata.data.info.filter fun pii =>
        (goParseBool pii.current).getD false).map ProjectIdentifiableInfo.version :=
      List.mem_map_of_mem _ (List.mem_filter.2 ⟨hp2, hc2⟩)
    have hs1 : (mapGet? (verFold _ []) p1.version).isSome = true :=
      (verFold_keys _ [] p1.version).2 (.inr hk1)
    have hs2 : (mapGet? (verFold _ []) p2.version).isSome = true :=
      (verFold_keys _ [] p2.version).2 (.inr hk2)
    obtain ⟨v1, hv1⟩ := Option.isSome_iff_exists.1 hs1
    obtain ⟨v2, hv2⟩ := Option.isSome_iff_exists.1 hs2
    exact one_lt_length_of_two_mem (mapGet?_mem hv1) (mapGet?_mem hv2)
      (fun he => hne (congrArg Prod.fst he))

theorem errMultipleCurrent_ne_drift (project : GoStr) :
    errMultipleCurrent project ≠ errCacheDrift := by
  intro h
  have := congrArg (fun l => l.head?) h
  simp [errMultipleCurrent, errCacheDrift] at this

/-- Unfolding `getCurrentVersion` when the current-version map is not
over-populated. -/
theorem getCurrentVersion_of_single (project : GoStr) (cmdata : CmData)
    (marked : GoStr → List GoStr) (v n : GoStr)
    (hvd : ExtractCurrentVersionDetails cmdata = [(v, n)]) :
    getCurrentVersion project cmdata marked
      = if sortStr (marked v) = sortStr (goSplitChar ',' n) then .ok v
        else .error errCacheDrift := by
  unfold getCurrentVersion
  rw [hvd]
  rfl

theorem getCurrentVersion_of_empty (project : GoStr) (cmdata : CmData)
    (marked : GoStr → List GoStr)
    (hvd : ExtractCurrentVersionDetails cmdata = []) :
    getCurrentVersion project cmdata marked
      = if sortStr (marked []) = sortStr [] then .ok []
        else .error errCacheDrift := by
  unfold getCurrentVersion
  rw [hvd]
  rfl

theorem getCurrentVersion_of_many (project : GoStr) (cmdata : CmData)
    (marked : GoStr → List GoStr)
    (hvd : 1 < (ExtractCurrentVersionDetails cmdata).length) :
    getCurrentVersion project cmdata marked = .error (errMultipleCurrent project) := by
  unfold getCurrentVersion
  rw [if_pos hvd]

/-- The comma-join of a non-empty list of comma-free strings re-splits to the
original list; an empty list instead re-splits to `[""]`. -/
theorem goSplitChar_goJoin (ns : List GoStr) (hne : ns ≠ [])
    (hcf : ∀ x ∈ ns, commaFree x) :
    goSplitChar ',' (goJoin ns ",".toList) = ns := by
  induction ns with
  | nil => exact absurd rfl hne
  | cons x rest ih =>
    cases rest with
    | nil =>
      show goSplitChar ',' (goJoin [x] ",".toList) = [x]
      have : goJoin [x] ",".toList = x := by simp [goJoin, List.intercalate]
      rw [this]
      exact goSplitChar_no_sep ',' x (hcf x (List.mem_cons_self x []))
    | cons y t =>
      have hjoin : goJoin (x :: y :: t) ",".toList = x ++ ',' :: goJoin (y :: t) ",".toList := by
        simp [goJoin, List.intercalate, List.intersperse]
      rw [hjoin, goSplitChar_append_cons ',' x _ (hcf x (List.mem_cons_self x _)),
        ih (by simp) (fun z hz => hcf z (List.mem_cons_of_mem x hz))]

/-- C4 counterexample: the claim says `getCurrentVersion` fails when more than
one cache entry is marked current.  Two entries marked current with the same
version collapse to one key in the version map, so the check `len(vd) > 1`
passes and the call even succeeds (against the node list of the last such
entry). -/
theorem rooster_C4_counterexample :
    getCurrentVersion "demo".toList
      ⟨⟨"demo".toList,
        [⟨"v1".toList, "true".toList, ["n1".toList]⟩,
         ⟨"v1".toList, "true".toList, ["n2".toList]⟩]⟩⟩
      (fun _ => ["n2".toList]) = .ok "v1".toList := rfl

/-- C4 (amended): `getCurrentVersion` fails with the multiple-current error
exactly when current-marked entries (Go `ParseBool` of `current`) span more
than one distinct version.  Otherwise, with the version map reduced to one
pair `(v, n)` — where `n` is the comma-join of the nodes of the last
current-marked entry — it returns `v` exactly when the on-cluster marked
nodes are a permutation of the re-split `n` (sorting both lexicographically
and comparing), and otherwise fails with the cache-drift error; re-splitting
restores the recorded node list when it is non-empty and comma-free, while an
empty recorded list becomes `[""]`. -/
theorem rooster_C4_amended (project : GoStr) (cmdata : CmData)
    (marked : GoStr → List GoStr) :
    (getCurrentVersion project cmdata marked = .error (errMultipleCurrent project)
      ↔ ∃ p1 ∈ cmdata.data.info, ∃ p2 ∈ cmdata.data.info,
          (goParseBool p1.current).getD false = true
          ∧ (goParseBool p2.current).getD false = true
          ∧ p1.version ≠ p2.version)
    ∧ (∀ v n, ExtractCurrentVersionDetails cmdata = [(v, n)] →
        (getCurrentVersion project cmdata marked = .ok v
          ↔ (marked v).Perm (goSplitChar ',' n))
        ∧ (¬ (marked v).Perm (goSplitChar ',' n) →
            getCurrentVersion project cmdata marked = .error errCacheDrift))
    ∧ (ExtractCurrentVersionDetails cmdata = [] →
        (getCurrentVersion project cmdata marked = .ok [] ↔ (marked []).Perm []))
    ∧ (∀ piiC, cmdata.data.info.filter
          (fun pii => (goParseBool pii.current).getD false) = [piiC] →
        ExtractCurrentVersionDetails cmdata
          = [(piiC.version, goJoin piiC.nodes ",".toList)])
    ∧ (∀ ns : List GoStr, ns ≠ [] → (∀ x ∈ ns, commaFree x) →
        goSplitChar ',' (goJoin ns ",".toList) = ns) := by
  refine ⟨?_, ?_, ?_, ?_, goSplitChar_goJoin⟩
  · by_cases hlen : 1 < (ExtractCurrentVersionDetails cmdata).length
    · rw [getCurrentVersion_of_many project cmdata marked hlen]
      exact iff_of_true rfl ((ecvd_length_gt_one_iff cmdata).1 hlen)
    · refine iff_of_false ?_ ?_
      · cases hvd : ExtractCurrentVersionDetails cmdata with
        | nil =>
          rw [getCurrentVersion_of_empty project cmdata marked hvd]
          by_cases hs : sortStr (marked []) = sortStr ([] : List GoStr)
          · rw [if_pos hs]
            intro h
            cases h
          · rw [if_neg hs]
            intro h
            exact errMultipleCurrent_ne_drift project (Except.error.inj h).symm
        | cons e1 rest =>
          cases rest with
          | nil =>
            rw [getCurrentVersion_of_single project cmdata marked e1.1 e1.2
              (by rw [hvd])]
            by_cases hs : sortStr (marked e1.1) = sortStr (goSplitChar ',' e1.2)
            · rw [if_pos hs]
              intro h
              cases h
            · rw [if_neg hs]
              intro h
              exact errMultipleCurrent_ne_drift project (Except.error.inj h).symm
          | cons e2 t =>
            rw [hvd] at hlen
            simp at hlen
      · intro htwo
        exact hlen ((ecvd_length_gt_one_iff cmdata).2 htwo)
  · intro v n hvd
    rw [getCurrentVersion_of_single project cmdata marked v n hvd]
    constructor
    · by_cases hs : sortStr (marked v) = sortStr (goSplitChar ',' n)
      · rw [if_pos hs]
        exact iff_of_true rfl ((sortStr_eq_iff_perm _ _).1 hs)
      · rw [if_neg hs]
        refine iff_of_false (fun h => by cases h) ?_
        intro hperm
        exact hs ((sortStr_eq_iff_perm _ _).2 hperm)
    · intro hperm
      rw [if_neg (fun hs => hperm ((sortStr_eq_iff_perm _ _).1 hs))]
  · intro hvd
    rw [getCurrentVersion_of_empty project cmdata marked hvd]
    by_cases hs : sortStr (marked []) = sortStr ([] : List GoStr)
    · rw [if_pos hs]
      exact iff_of_true rfl ((sortStr_eq_iff_perm _ _).1 hs)
    · rw [if_neg hs]
      refine iff_of_false (fun h => by cases h) ?_
      intro hperm
      exact hs ((sortStr_eq_iff_perm _ _).2 hperm)
  · intro piiC hfil
    rw [ecvd_eq_verFold_filter, hfil]
    rfl

/-- C4 witness: one current entry `v1` on node `n1` plus a non-current entry;
the marked-node oracle returns `[n1]`, the version map is `[(v1, "n1")]`, and
`getCurrentVersion` returns `v1`. -/
theorem rooster_C4_amended_witness :
    ExtractCurrentVersionDetails
        ⟨⟨"demo".toList,
          [⟨"v1".toList, "true".toList, ["n1".toList]⟩,
           ⟨"v0".toList, "false".toList, []⟩]⟩⟩
      = [("v1".toList, "n1".toList)]
    ∧ getCurrentVersion "demo".toList
        ⟨⟨"demo".toList,
          [⟨"v1".toList, "true".toList, ["n1".toList]⟩,
           ⟨"v0".toList, "false".toList, []⟩]⟩⟩
        (fun _ => ["n1".toList]) = .ok "v1".toList := by
  have h := rooster_C4_amended "demo".toList
    ⟨⟨"demo".toList,
      [⟨"v1".toList, "true".toList, ["n1".toList]⟩,
       ⟨"v0".toList, "false".toList, []⟩]⟩⟩
    (fun _ => ["n1".toList])
  have hvd : ExtractCurrentVersionDetails
      ⟨⟨"demo".toList,
        [⟨"v1".toList, "true".toList, ["n1".toList]⟩,
         ⟨"v0".toList, "false".toList, []⟩]⟩⟩
      = [("v1".toList, "n1".toList)] := rfl
  exact ⟨hvd, (h.2.1 "v1".toList "n1".toList hvd).1.mpr (by decide)⟩

/-! ## Cache rewriting: decode and shape lemmas (C1, C2) -/

theorem goJoin_comma (a b : GoStr) : goJoin [a, b] ",".toList = a ++ ',' :: b := by
  rw [goJoin_pair]
  simp

theorem split_first_field {vk vrs cur : GoStr} {t : List GoStr}
    (h : goSplitChar ',' vk = vrs :: cur :: t) :
    vrs = vk.takeWhile (· ≠ ',') := by
  obtain ⟨t2, ht2⟩ := goSplitChar_head ',' vk
  rw [ht2] at h
  injection h with h1 _
  exact h1.symm

theorem takeWhile_of_commaFree {a : GoStr} (ha : commaFree a) :
    a.takeWhile (· ≠ ',') = a := by
  induction a with
  | nil => rfl
  | cons x xs ih =>
    have hx : ¬ x = ',' := fun he => ha (he ▸ List.mem_cons_self x xs)
    have hxs : commaFree xs := fun hm => ha (List.mem_cons_of_mem x hm)
    rw [List.takeWhile_cons, if_pos (by simpa using hx), ih hxs]

/-- The version field decoded from a key `a ++ "," ++ b` is the comma-free
head of `a`. -/
theorem key_first_field (a b : GoStr) :
    (a ++ ',' :: b).takeWhile (· ≠ ',') = a.takeWhile (· ≠ ',') :=
  takeWhile_append_cons ',' a b

/-- Decoding a key built from comma-free fields recovers both fields. -/
theorem split_key_exact (a b : GoStr) (ha : commaFree a) (hb : commaFree b) :
    goSplitChar ',' (a ++ ',' :: b) = [a, b] := by
  rw [goSplitChar_append_cons ',' a b ha, goSplitChar_no_sep ',' b hb]

theorem setStatus_self (p vrs pv c : GoStr) :
    setStatus p vrs p pv c = if vrs = pv then "true".toList else "false".toList := by
  unfold setStatus
  rw [if_pos rfl]

theorem makeNodeNames_convert (l : List GoStr) :
    MakeNodeNames (ConvertToNodeList l) = l := by
  unfold MakeNodeNames ConvertToNodeList
  rw [List.map_map]
  exact List.map_id l

/-- The node names kept for an old version once the new version claims
`ns`: the old names that are empty or not claimed. -/
theorem extract_names (nodes : List GoStr) (ns : List GoNode) :
    MakeNodeNames (ExtractUncommonNodes (ConvertToNodeList nodes)
        (ConvertToNodeList (MakeNodeNames ns)))
      = nodes.filter fun n => decide (n = [] ∨ n ∉ MakeNodeNames ns) := by
  rw [extractUncommon_filter, makeNodeNames_convert]
  show List.map GoNode.name (List.filter _ (List.map GoNode.mk nodes)) = _
  rw [List.filter_map, List.map_map]
  have hcomp : (GoNode.name ∘ GoNode.mk) = id := rfl
  rw [hcomp, List.map_id]
  rfl

theorem distribute_ne (pv : GoStr) (ns : List GoNode) (pii : ProjectIdentifiableInfo)
    (h : pii.version ≠ pv) :
    distributeNodesThroughVersions pv ns pii
      = [(pii.version ++ [','] ++ pii.current,
          MakeNodeNames (ExtractUncommonNodes (ConvertToNodeList pii.nodes)
            (ConvertToNodeList (MakeNodeNames ns))))] := by
  unfold distributeNodesThroughVersions
  show [(pii.version ++ [','] ++ pii.current,
      if pii.version ≠ pv then
        MakeNodeNames (ExtractUncommonNodes (ConvertToNodeList pii.nodes)
          (ConvertToNodeList (MakeNodeNames ns)))
      else MakeNodeNames ns)] = _
  rw [if_pos h]

theorem rewriteLoop_mem (pv : GoStr) (ns : List GoNode) :
    ∀ (l : List ProjectIdentifiableInfo) (versions : List (GoStr × List GoStr))
      (e : GoStr × List GoStr), e ∈ rewriteLoop pv ns l versions →
      e ∈ versions
      ∨ (∃ pii ∈ l, pii.version = pv
          ∧ e = (goJoin [pii.version, pii.current] ",".toList, MakeNodeNames ns))
      ∨ (∃ pii ∈ l, pii.version ≠ pv
          ∧ e = (pii.version ++ [','] ++ pii.current,
                 MakeNodeNames (ExtractUncommonNodes (ConvertToNodeList pii.nodes)
                   (ConvertToNodeList (MakeNodeNames ns)))))
      ∨ e = (goJoin [pv, "true".toList] ",".toList, MakeNodeNames ns) := by
  intro l
  induction l with
  | nil =>
    intro versions e he
    exact .inl he
  | cons pii rest ih =>
    intro versions e he
    unfold rewriteLoop at he
    by_cases hv : pv = pii.version
    · rw [if_pos hv] at he
      rcases ih _ e he with h0 | h1 | h2 | h3
      · rcases mapPut_mem h0 with hm | hm
        · exact .inr (.inl ⟨pii, List.mem_cons_self pii rest, hv.symm, hm⟩)
        · exact .inl hm
      · obtain ⟨p, hp, hpv, hpe⟩ := h1
        exact .inr (.inl ⟨p, List.mem_cons_of_mem pii hp, hpv, hpe⟩)
      · obtain ⟨p, hp, hpv, hpe⟩ := h2
        exact .inr (.inr (.inl ⟨p, List.mem_cons_of_mem pii hp, hpv, hpe⟩))
      · exact .inr (.inr (.inr h3))
    · rw [if_neg hv] at he
      rw [distribute_ne pv ns pii (fun h2 => hv h2.symm)] at he
      rcases ih _ e he with h0 | h1 | h2 | h3
      · rcases mapPut_mem h0 with hm | hm
        · exact .inr (.inr (.inr hm))
        · rcases mapPut_mem hm with hm2 | hm2
          · exact .inr (.inr (.inl ⟨pii, List.mem_cons_self pii rest,
              fun h2 => hv h2.symm, hm2⟩))
          · exact .inl hm2
      · obtain ⟨p, hp, hpv, hpe⟩ := h1
        exact .inr (.inl ⟨p, List.mem_cons_of_mem pii hp, hpv, hpe⟩)
      · obtain ⟨p, hp, hpv, hpe⟩ := h2
        exact .inr (.inr (.inl ⟨p, List.mem_cons_of_mem pii hp, hpv, hpe⟩))
      · exact .inr (.inr (.inr h3))

theorem rewriteLoop_nodupKeys (pv : GoStr) (ns : List GoNode) :
    ∀ (l : List ProjectIdentifiableInfo) (versions : List (GoStr × List GoStr)),
      versions.Pairwise (fun a b => a.1 ≠ b.1) →
      (rewriteLoop pv ns l versions).Pairwise fun a b => a.1 ≠ b.1 := by
  intro l
  induction l with
  | nil => intro versions h; exact h
  | cons pii rest ih =>
    intro versions h
    unfold rewriteLoop
    by_cases hv : pv = pii.version
    · rw [if_pos hv]
      exact ih _ (mapPut_nodupKeys _ _ h)
    · rw [if_neg hv]
      rw [distribute_ne pv ns pii (fun h2 => hv h2.symm)]
      exact ih _ (mapPut_nodupKeys _ _ (mapPut_nodupKeys _ _ h))

/-! ## C1: at most one current entry -/

theorem countTrueL_append_single (l : List ProjectIdentifiableInfo)
    (e : ProjectIdentifiableInfo) :
    countTrueL (l ++ [e])
      = countTrueL l + (if e.current = "true".toList then 1 else 0) := by
  unfold countTrueL
  rw [List.filter_append, List.length_append]
  congr 1
  by_cases h : e.current = "true".toList
  · rw [if_pos h, List.filter_cons_of_pos (by simpa using h)]
    rfl
  · rw [if_neg h, List.filter_cons_of_neg (by simpa using h)]
    rfl

theorem makeDataLoop_cons_eq (action projectName projectVersion vk : GoStr)
    (nodes : List GoStr) (rest : List (GoStr × List GoStr)) (ref : GoStr)
    (acc : List ProjectIdentifiableInfo) (vrs cur : GoStr) (t : List GoStr)
    (hs : goSplitChar ',' vk = vrs :: cur :: t) :
    makeDataLoop action projectName projectVersion ((vk, nodes) :: rest) ref acc
      = if goContains ref vrs = true then
          makeDataLoop action projectName projectVersion rest ref acc
        else
          makeDataLoop action projectName projectVersion rest
            (goJoin [ref, vrs] ",".toList)
            (acc ++ [⟨vrs, emittedCur action projectName projectVersion vrs cur nodes,
              nodes⟩]) := by
  simp only [makeDataLoop, hs, emittedCur]

theorem makeDataLoop_cons_none (action projectName projectVersion vk : GoStr)
    (nodes : List GoStr) (rest : List (GoStr × List GoStr)) (ref : GoStr)
    (acc : List ProjectIdentifiableInfo) (vrs : GoStr)
    (hs : goSplitChar ',' vk = [vrs]) :
    makeDataLoop action projectName projectVersion ((vk, nodes) :: rest) ref acc
      = none := by
  unfold makeDataLoop
  rw [hs]

theorem infix_append_right {l r : GoStr} (h : l <:+: r) (x : GoStr) :
    l <:+: r ++ x :=
  h.trans (List.prefix_append r x).isInfix

theorem infix_self_suffix (ref vrs : GoStr) : vrs <:+: ref ++ ',' :: vrs :=
  ((List.suffix_cons ',' vrs).trans (List.suffix_append ref (',' :: vrs))).isInfix

theorem makeDataLoop_count (action projectName projectVersion : GoStr) :
    ∀ (entries : List (GoStr × List GoStr)) (ref : GoStr)
      (acc : List ProjectIdentifiableInfo),
      (∀ e ∈ entries, ∀ vrs cur : GoStr, ∀ t : List GoStr,
        goSplitChar ',' e.1 = vrs :: cur :: t →
        emittedCur action projectName projectVersion vrs cur e.2 = "true".toList →
        vrs = projectVersion) →
      (∀ a ∈ acc, a.current = "true".toList → a.version = projectVersion) →
      countTrueL acc ≤ 1 →
      (countTrueL acc = 1 → projectVersion <:+: ref) →
      ∀ out, makeDataLoop action projectName projectVersion entries ref acc = some out →
        countTrueL out ≤ 1 := by
  intro entries
  induction entries with
  | nil =>
    intro ref acc _ _ h2 _ out hout
    unfold makeDataLoop at hout
    cases hout
    exact h2
  | cons ent rest ih =>
    intro ref acc hgood hver hcnt hinf out hout
    obtain ⟨vk, nodes⟩ := ent
    cases hs : goSplitChar ',' vk with
    | nil => exact absurd hs (goSplitChar_ne_nil ',' vk)
    | cons vrs ts =>
      cases ts with
      | nil =>
        rw [makeDataLoop_cons_none action projectName projectVersion vk nodes rest ref acc
          vrs hs] at hout
        cases hout
      | cons cur t =>
        rw [makeDataLoop_cons_eq action projectName projectVersion vk nodes rest ref acc
          vrs cur t hs] at hout
        by_cases hcont : goContains ref vrs = true
        · rw [if_pos hcont] at hout
          exact ih ref acc (fun e he => hgood e (List.mem_cons_of_mem _ he))
            hver hcnt hinf out hout
        · rw [if_neg hcont] at hout
          have hvrs_of_true :
              emittedCur action projectName projectVersion vrs cur nodes = "true".toList →
              vrs = projectVersion :=
            fun hc => hgood (vk, nodes) (List.mem_cons_self _ _) vrs cur t hs hc
          have hout2 : makeDataLoop action projectName projectVersion rest
              (ref ++ ',' :: vrs)
              (acc ++ [⟨vrs, emittedCur action projectName projectVersion vrs cur nodes,
                nodes⟩]) = some out := by
            rw [← goJoin_comma]
            exact hout
          have hcnt_app := countTrueL_append_single acc
            ⟨vrs, emittedCur action projectName projectVersion vrs cur nodes, nodes⟩
          by_cases htrue :
              emittedCur action projectName projectVersion vrs cur nodes = "true".toList
          · have hacc0 : countTrueL acc = 0 := by
              by_contra h0
              have h1 : countTrueL acc = 1 := by omega
              have h2 : projectVersion <:+: ref := hinf h1
              have h3 : goContains ref vrs = true := by
                rw [goContains_iff]
                rw [hvrs_of_true htrue]
                exact h2
              exact hcont h3
            refine ih (ref ++ ',' :: vrs) _ (fun e he => hgood e (List.mem_cons_of_mem _ he))
              ?_ ?_ ?_ out hout2
            · intro a ha
              rcases List.mem_append.1 ha with h1 | h1
              · exact hver a h1
              · rw [List.mem_singleton] at h1
                subst h1
                intro hc
                exact hvrs_of_true hc
            · rw [hcnt_app, hacc0]
              simp [htrue]
            · intro _
              rw [← hvrs_of_true htrue]
              exact infix_self_suffix ref vrs
          · refine ih (ref ++ ',' :: vrs) _ (fun e he => hgood e (List.mem_cons_of_mem _ he))
              ?_ ?_ ?_ out hout2
            · intro a ha
              rcases List.mem_append.1 ha with h1 | h1
              · exact hver a h1
              · rw [List.mem_singleton] at h1
                subst h1
                intro hc
                exact absurd hc htrue
            · rw [hcnt_app]
              simp only [htrue, if_false]
              omega
            · intro h1
              rw [hcnt_app] at h1
              simp only [htrue, if_false] at h1
              exact infix_append_right (hinf (by omega)) (',' :: vrs)

/-- C1 counterexample: on a scale-down from current version `v1` (on `n1`) to
a different desired version `v2` (on `n2`), the scale-down branch preserves
the prior `current="true"` of the `v1` entry because its surviving node list
is non-empty, while the new `v2` entry is written with `current="true"` — two
current entries, violating I1 as the claim states it. -/
theorem rooster_C1_counterexample :
    ComposeConfigMapData "scale-down".toList "demo".toList "v2".toList
        [⟨"n2".toList⟩]
        ⟨⟨"demo".toList, [⟨"v1".toList, "true".toList, ["n1".toList]⟩]⟩⟩
      = some ⟨"demo".toList,
          [⟨"v1".toList, "true".toList, ["n1".toList]⟩,
           ⟨"v2".toList, "true".toList, ["n2".toList]⟩]⟩
    ∧ countCurrentTrue
        ⟨"demo".toList,
          [⟨"v1".toList, "true".toList, ["n1".toList]⟩,
           ⟨"v2".toList, "true".toList, ["n2".toList]⟩]⟩ = 2 :=
  ⟨rfl, rfl⟩

/-- C1 (amended): the composed cache data contains at most one entry with
`current="true"` for every action other than scale-down (any prior state,
any version and node list, despite the substring deduplication); for
scale-down it additionally requires that the desired version and the prior
fields are comma-free and that every prior entry marked `"true"` either has
the desired version or retains no node once the new version claims its nodes
(the condition violated by the counterexample). -/
theorem rooster_C1_amended (action projectName projectVersion : GoStr)
    (nodeResources : List GoNode) (previousData : CmData)
    (hscale : action = "scale-down".toList →
      commaFree projectVersion
      ∧ (∀ pii ∈ previousData.data.info, commaFree pii.version ∧ commaFree pii.current)
      ∧ (∀ pii ∈ previousData.data.info, pii.current = "true".toList →
          pii.version ≠ projectVersion →
          ExtractUncommonNodes (ConvertToNodeList pii.nodes)
            (ConvertToNodeList (MakeNodeNames nodeResources)) = [])) :
    ∀ pi, ComposeConfigMapData action projectName projectVersion nodeResources previousData
        = some pi → countCurrentTrue pi ≤ 1 := by
  intro pi hpi
  unfold ComposeConfigMapData at hpi
  by_cases hz : previousData.data = (⟨[], []⟩ : ProjectInfo)
  · rw [if_pos hz] at hpi
    cases hpi
    show countTrueL [⟨projectVersion, "true".toList, MakeNodeNames nodeResources⟩] ≤ 1
    unfold countTrueL
    simp
  · rw [if_neg hz] at hpi
    unfold rewriteCMData makeDataFromProjectDetails at hpi
    rw [Option.map_eq_some'] at hpi
    obtain ⟨inf, hloop, hpi2⟩ := hpi
    have hcount : countTrueL inf ≤ 1 := by
      refine makeDataLoop_count action projectName projectVersion
        (rewriteLoop projectVersion nodeResources previousData.data.info []) [] []
        ?_ (by intro a ha; cases ha) (by simp [countTrueL])
        (by intro h; simp [countTrueL] at h) inf hloop
      intro e he vrs cur t hsplit hemit
      rcases rewriteLoop_mem projectVersion nodeResources previousData.data.info [] e he
        with h0 | h1 | h2 | h3
      · cases h0
      · obtain ⟨pii, hpmem, hpv, hpe⟩ := h1
        by_cases hact : action = "scale-down".toList
        · obtain ⟨hpvcf, _, _⟩ := hscale hact
          have hkey : e.1 = projectVersion ++ ',' :: pii.current := by
            rw [hpe, goJoin_comma, hpv]
          rw [hkey, goSplitChar_append_cons ',' projectVersion pii.current hpvcf] at hsplit
          injection hsplit with hv _
          exact hv.symm
        · have hset : emittedCur action projectName projectVersion vrs cur e.2
              = setStatus projectName vrs projectName projectVersion cur := by
            unfold emittedCur
            rw [if_neg (fun hc => hact hc.1)]
          rw [hset, setStatus_self] at hemit
          by_cases hv : vrs = projectVersion
          · exact hv
          · rw [if_neg hv] at hemit
            exact absurd hemit (by decide)
      · obtain ⟨pii, hpmem, hpv, hpe⟩ := h2
        by_cases hact : action = "scale-down".toList
        · obtain ⟨hpvcf, hwf, hclaim⟩ := hscale hact
          obtain ⟨hvcf, hccf⟩ := hwf pii hpmem
          have hkey : e.1 = pii.version ++ ',' :: pii.current := by
            rw [hpe]
            simp
          rw [hkey, split_key_exact pii.version pii.current hvcf hccf] at hsplit
          injection hsplit with hv hrest
          injection hrest with hc _
          subst hv
          subst hc
          unfold emittedCur at hemit
          by_cases hnodes : e.2.length ≠ 0
          · rw [if_pos ⟨hact, hnodes⟩] at hemit
            have hempty := hclaim pii hpmem hemit hpv
            have : e.2 = [] := by
              rw [hpe]
              show MakeNodeNames (ExtractUncommonNodes _ _) = []
              rw [hempty]
              rfl
            exact absurd (by rw [this] at hnodes; exact hnodes rfl) (fun h => h)
          · rw [if_neg (fun hc => hnodes hc.2)] at hemit
            rw [setStatus_self] at hemit
            by_cases hv : pii.version = projectVersion
            · exact hv
            · rw [if_neg hv] at hemit
              exact absurd hemit (by decide)
        · have hset : emittedCur action projectName projectVersion vrs cur e.2
              = setStatus projectName vrs projectName projectVersion cur := by
            unfold emittedCur
            rw [if_neg (fun hc => hact hc.1)]
          rw [hset, setStatus_self] at hemit
          by_cases hv : vrs = projectVersion
          · exact hv
          · rw [if_neg hv] at hemit
            exact absurd hemit (by decide)
      · by_cases hact : action = "scale-down".toList
        · obtain ⟨hpvcf, _, _⟩ := hscale hact
          have hkey : e.1 = projectVersion ++ ',' :: "true".toList := by
            rw [h3, goJoin_comma]
          rw [hkey, goSplitChar_append_cons ',' projectVersion _ hpvcf] at hsplit
          injection hsplit with hv _
          exact hv.symm
        · have hset : emittedCur action projectName projectVersion vrs cur e.2
              = setStatus projectName vrs projectName projectVersion cur := by
            unfold emittedCur
            rw [if_neg (fun hc => hact hc.1)]
          rw [hset, setStatus_self] at hemit
          by_cases hv : vrs = projectVersion
          · exact hv
          · rw [if_neg hv] at hemit
            exact absurd hemit (by decide)
    rw [← hpi2]
    exact hcount

/-- C1 witness: a plain update from `v1` to `v2` (action ≠ scale-down, the
hypothesis discharged vacuously) yields exactly one current entry. -/
theorem rooster_C1_amended_witness :
    ComposeConfigMapData "update".toList "demo".toList "v2".toList
        [⟨"n2".toList⟩]
        ⟨⟨"demo".toList, [⟨"v1".toList, "true".toList, ["n1".toList, "n2".toList]⟩]⟩⟩
      = some ⟨"demo".toList,
          [⟨"v1".toList, "false".toList, ["n1".toList]⟩,
           ⟨"v2".toList, "true".toList, ["n2".toList]⟩]⟩
    ∧ countCurrentTrue
        ⟨"demo".toList,
          [⟨"v1".toList, "false".toList, ["n1".toList]⟩,
           ⟨"v2".toList, "true".toList, ["n2".toList]⟩]⟩ ≤ 1 := by
  refine ⟨rfl, ?_⟩
  have h := rooster_C1_amended "update".toList "demo".toList "v2".toList
    [⟨"n2".toList⟩]
    ⟨⟨"demo".toList, [⟨"v1".toList, "true".toList, ["n1".toList, "n2".toList]⟩]⟩⟩
    (fun hc => absurd hc (by decide))
  exact h _ rfl

/-! ## C2: node repartition keeps names in at most one entry -/

theorem nodesDisjoint_symm {l1 l2 : List GoStr} (h : NodesDisjoint l1 l2) :
    NodesDisjoint l2 l1 :=
  fun n hn => h n ⟨hn.2, hn.1⟩

theorem nodesDisjoint_sub_left {l1 l1' l2 : List GoStr}
    (hsub : ∀ n ∈ l1', n ∈ l1) (h : NodesDisjoint l1 l2) : NodesDisjoint l1' l2 :=
  fun n hn => h n ⟨hsub n hn.1, hn.2⟩

theorem nodesDisjoint_sub_right {l1 l2 l2' : List GoStr}
    (hsub : ∀ n ∈ l2', n ∈ l2) (h : NodesDisjoint l1 l2) : NodesDisjoint l1 l2' :=
  fun n hn => h n ⟨hn.1, hsub n hn.2⟩

theorem filtered_disjoint_names (nodes : List GoStr) (ns : List GoNode)
    (hne : ([] : GoStr) ∉ MakeNodeNames ns) :
    NodesDisjoint (nodes.filter fun n => decide (n = [] ∨ n ∉ MakeNodeNames ns))
      (MakeNodeNames ns) := by
  intro n hn
  obtain ⟨h1, h2⟩ := hn
  have h3 := List.of_mem_filter h1
  simp only [decide_eq_true_eq] at h3
  rcases h3 with h | h
  · exact hne (h ▸ h2)
  · exact h h2

theorem makeDataLoop_pairwise (action projectName projectVersion : GoStr) :
    ∀ (entries : List (GoStr × List GoStr)) (ref : GoStr)
      (acc : List ProjectIdentifiableInfo),
      List.Pairwise (fun e1 e2 => ∀ v1 c1 : GoStr, ∀ t1 : List GoStr,
        ∀ v2 c2 : GoStr, ∀ t2 : List GoStr,
        goSplitChar ',' e1.1 = v1 :: c1 :: t1 → goSplitChar ',' e2.1 = v2 :: c2 :: t2 →
        v1 ≠ v2 → NodesDisjoint e1.2 e2.2) entries →
      (∀ a ∈ acc, ∀ e ∈ entries, ∀ v c : GoStr, ∀ t : List GoStr,
        goSplitChar ',' e.1 = v :: c :: t → v ≠ a.version → NodesDisjoint a.nodes e.2) →
      List.Pairwise (fun a b => NodesDisjoint a.nodes b.nodes) acc →
      (∀ a ∈ acc, a.version <:+: ref) →
      ∀ out, makeDataLoop action projectName projectVersion entries ref acc = some out →
        List.Pairwise (fun a b => NodesDisjoint a.nodes b.nodes) out := by
  intro entries
  induction entries with
  | nil =>
    intro ref acc _ _ hacc _ out hout
    unfold makeDataLoop at hout
    cases hout
    exact hacc
  | cons ent rest ih =>
    intro ref acc hpw hcross hacc hinf out hout
    obtain ⟨vk, nodes⟩ := ent
    cases hs : goSplitChar ',' vk with
    | nil => exact absurd hs (goSplitChar_ne_nil ',' vk)
    | cons vrs ts =>
      cases ts with
      | nil =>
        rw [makeDataLoop_cons_none action projectName projectVersion vk nodes rest ref acc
          vrs hs] at hout
        cases hout
      | cons cur t =>
        rw [makeDataLoop_cons_eq action projectName projectVersion vk nodes rest ref acc
          vrs cur t hs] at hout
        by_cases hcont : goContains ref vrs = true
        · rw [if_pos hcont] at hout
          exact ih ref acc hpw.of_cons
            (fun a ha e he => hcross a ha e (List.mem_cons_of_mem _ he))
            hacc hinf out hout
        · rw [if_neg hcont] at hout
          rw [goJoin_comma] at hout
          have hne_ver : ∀ a ∈ acc, vrs ≠ a.version := by
            intro a ha he
            apply hcont
            rw [goContains_iff, he]
            exact hinf a ha
          refine ih (ref ++ ',' :: vrs)
            (acc ++ [⟨vrs, emittedCur action projectName projectVersion vrs cur nodes,
              nodes⟩]) hpw.of_cons ?_ ?_ ?_ out hout
          · intro a ha e' he' v c t' hsplit hvne
            rcases List.mem_append.1 ha with h1 | h1
            · exact hcross a h1 e' (List.mem_cons_of_mem _ he') v c t' hsplit hvne
            · rw [List.mem_singleton] at h1
              subst h1
              exact (List.pairwise_cons.1 hpw).1 e' he' vrs cur t v c t' hs hsplit
                (fun hv => hvne hv.symm)
          · rw [List.pairwise_append]
            refine ⟨hacc, List.pairwise_singleton _ _, ?_⟩
            intro a ha b hb
            rw [List.mem_singleton] at hb
            subst hb
            exact hcross a ha (vk, nodes) (List.mem_cons_self _ _) vrs cur t hs
              (hne_ver a ha)
          · intro a ha
            rcases List.mem_append.1 ha with h1 | h1
            · exact infix_append_right (hinf a h1) (',' :: vrs)
            · rw [List.mem_singleton] at h1
              subst h1
              exact infix_self_suffix ref vrs

/-- Any two distinct-key entries of the `versions` map built by `rewriteCMData`
have disjoint node lists whenever their decoded version fields differ,
provided the prior entries are pairwise disjoint and no new node has an empty
name. -/
theorem rewrite_entries_rel (pv : GoStr) (ns : List GoNode)
    (info : List ProjectIdentifiableInfo)
    (hprior : List.Pairwise (fun a b => NodesDisjoint a.nodes b.nodes) info)
    (hnames : ([] : GoStr) ∉ MakeNodeNames ns)
    {e1 e2 : GoStr × List GoStr}
    (h1 : e1 ∈ rewriteLoop pv ns info []) (h2 : e2 ∈ rewriteLoop pv ns info []) :
    ∀ v1 c1 : GoStr, ∀ t1 : List GoStr, ∀ v2 c2 : GoStr, ∀ t2 : List GoStr,
      goSplitChar ',' e1.1 = v1 :: c1 :: t1 → goSplitChar ',' e2.1 = v2 :: c2 :: t2 →
      v1 ≠ v2 → NodesDisjoint e1.2 e2.2 := by
  intro v1 c1 t1 v2 c2 t2 hs1 hs2 hvne
  have hd : ∀ (pii : ProjectIdentifiableInfo),
      NodesDisjoint
        (MakeNodeNames (ExtractUncommonNodes (ConvertToNodeList pii.nodes)
          (ConvertToNodeList (MakeNodeNames ns))))
        (MakeNodeNames ns) := by
    intro pii
    rw [extract_names]
    exact filtered_disjoint_names pii.nodes ns hnames
  have hv1 := split_first_field hs1
  have hv2 := split_first_field hs2
  rcases rewriteLoop_mem pv ns info [] e1 h1 with h0 | ha1 | hb1 | hc1
  · cases h0
  all_goals rcases rewriteLoop_mem pv ns info [] e2 h2 with h0 | ha2 | hb2 | hc2
  any_goals cases h0
  -- same-version / same-version
  · obtain ⟨p1, _, hp1v, he1⟩ := ha1
    obtain ⟨p2, _, hp2v, he2⟩ := ha2
    exfalso
    apply hvne
    rw [hv1, hv2, he1, he2, goJoin_comma, goJoin_comma, hp1v, hp2v]
    simp only [key_first_field]
  -- same-version / cross
  · obtain ⟨p1, _, _, he1⟩ := ha1
    obtain ⟨p2, _, _, he2⟩ := hb2
    rw [he1, he2]
    exact nodesDisjoint_symm (hd p2)
  -- same-version / new
  · obtain ⟨p1, _, hp1v, he1⟩ := ha1
    exfalso
    apply hvne
    rw [hv1, hv2, he1, hc2, goJoin_comma, goJoin_comma, hp1v]
    simp only [key_first_field]
  -- cross / same-version
  · obtain ⟨p1, _, _, he1⟩ := hb1
    obtain ⟨p2, _, _, he2⟩ := ha2
    rw [he1, he2]
    exact hd p1
  -- cross / cross
  · obtain ⟨p1, hm1, _, he1⟩ := hb1
    obtain ⟨p2, hm2, _, he2⟩ := hb2
    have hpne : p1 ≠ p2 := by
      intro he
      apply hvne
      rw [hv1, hv2, he1, he2, he]
    have hdisj : NodesDisjoint p1.nodes p2.nodes :=
      hprior.forall (fun _ _ h => nodesDisjoint_symm h) hm1 hm2 hpne
    rw [he1, he2, extract_names, extract_names]
    exact nodesDisjoint_sub_left (fun n hn => List.mem_of_mem_filter hn)
      (nodesDisjoint_sub_right (fun n hn => List.mem_of_mem_filter hn) hdisj)
  -- cross / new
  · obtain ⟨p1, _, _, he1⟩ := hb1
    rw [he1, hc2]
    exact hd p1
  -- new / same-version
  · obtain ⟨p2, _, hp2v, he2⟩ := ha2
    exfalso
    apply hvne
    rw [hv1, hv2, hc1, he2, goJoin_comma, goJoin_comma, hp2v]
    simp only [key_first_field]
  -- new / cross
  · obtain ⟨p2, _, _, he2⟩ := hb2
    rw [hc1, he2]
    exact nodesDisjoint_symm (hd p2)
  -- new / new
  · exfalso
    apply hvne
    rw [hv1, hv2, hc1, hc2]

/-- C2 counterexample: the claim asserts that every node name claimed by the
new version is removed from the old version's node list and that each name
ends up in at most one entry, for any prior state satisfying I4.  The
one-entry prior `{v1, true, [""]}` satisfies I4, yet a cross-version rewrite
to `v2` claiming the node named `""` keeps `""` in both entries (the
extraction uses the empty name as its absence sentinel). -/
theorem rooster_C2_counterexample :
    ComposeConfigMapData "update".toList "demo".toList "v2".toList [⟨[]⟩]
        ⟨⟨"demo".toList, [⟨"v1".toList, "true".toList, [[]]⟩]⟩⟩
      = some ⟨"demo".toList,
          [⟨"v1".toList, "false".toList, [[]]⟩,
           ⟨"v2".toList, "true".toList, [[]]⟩]⟩
    ∧ ¬ List.Pairwise (fun a b => NodesDisjoint a.nodes b.nodes)
        [(⟨"v1".toList, "false".toList, [[]]⟩ : ProjectIdentifiableInfo),
         ⟨"v2".toList, "true".toList, [[]]⟩] := by
  refine ⟨rfl, ?_⟩
  intro h
  exact (List.pairwise_cons.1 h).1 ⟨"v2".toList, "true".toList, [[]]⟩
    (List.mem_singleton.2 rfl) []
    ⟨List.mem_singleton.2 rfl, List.mem_singleton.2 rfl⟩

/-- C2 (amended): in a cross-version rewrite every node name claimed by the
new version, except the empty name, is removed from the old entry's node
list (the old list keeps exactly its names that are empty or unclaimed); and
when the prior cache satisfies I4 and no claimed node has an empty name, the
composed cache again has each node name in at most one entry. -/
theorem rooster_C2_amended (action projectName projectVersion : GoStr)
    (nodeResources : List GoNode) (previousData : CmData)
    (hprior : List.Pairwise (fun a b => NodesDisjoint a.nodes b.nodes)
      previousData.data.info)
    (hnames : ([] : GoStr) ∉ MakeNodeNames nodeResources) :
    (∀ pii : ProjectIdentifiableInfo, pii.version ≠ projectVersion →
        distributeNodesThroughVersions projectVersion nodeResources pii
          = [(pii.version ++ [','] ++ pii.current,
              pii.nodes.filter fun n =>
                decide (n = [] ∨ n ∉ MakeNodeNames nodeResources))]
        ∧ NodesDisjoint
            (pii.nodes.filter fun n =>
              decide (n = [] ∨ n ∉ MakeNodeNames nodeResources))
            (MakeNodeNames nodeResources))
    ∧ (∀ pi, ComposeConfigMapData action projectName projectVersion nodeResources
          previousData = some pi →
        List.Pairwise (fun a b => NodesDisjoint a.nodes b.nodes) pi.info) := by
  constructor
  · intro pii hne
    constructor
    · rw [distribute_ne projectVersion nodeResources pii hne, extract_names]
    · exact filtered_disjoint_names pii.nodes nodeResources hnames
  · intro pi hpi
    unfold ComposeConfigMapData at hpi
    by_cases hz : previousData.data = (⟨[], []⟩ : ProjectInfo)
    · rw [if_pos hz] at hpi
      cases hpi
      exact List.pairwise_singleton _ _
    · rw [if_neg hz] at hpi
      unfold rewriteCMData makeDataFromProjectDetails at hpi
      rw [Option.map_eq_some'] at hpi
      obtain ⟨inf, hloop, hpi2⟩ := hpi
      have hnodup := rewriteLoop_nodupKeys projectVersion nodeResources
        previousData.data.info [] List.Pairwise.nil
      have hrel := List.Pairwise.imp_of_mem
        (fun {a b} ha hb hne =>
          rewrite_entries_rel projectVersion nodeResources previousData.data.info
            hprior hnames ha hb)
        hnodup
      have hpw := makeDataLoop_pairwise action projectName projectVersion
        (rewriteLoop projectVersion nodeResources previousData.data.info []) [] []
        hrel (by intro a ha; cases ha) List.Pairwise.nil
        (by intro a ha; cases ha) inf hloop
      rw [← hpi2]
      exact hpw

/-- C2 witness: updating `v1` (on `n1, n2`) to `v2` claiming `n2` removes
`n2` from `v1`'s list and the composed entries are name-disjoint. -/
theorem rooster_C2_amended_witness :
    (([] : GoStr) ∉ MakeNodeNames [⟨"n2".toList⟩])
    ∧ ComposeConfigMapData "update".toList "demo".toList "v2".toList
        [⟨"n2".toList⟩]
        ⟨⟨"demo".toList, [⟨"v1".toList, "true".toList, ["n1".toList, "n2".toList]⟩]⟩⟩
      = some ⟨"demo".toList,
          [⟨"v1".toList, "false".toList, ["n1".toList]⟩,
           ⟨"v2".toList, "true".toList, ["n2".toList]⟩]⟩
    ∧ List.Pairwise (fun a b => NodesDisjoint a.nodes b.nodes)
        [(⟨"v1".toList, "false".toList, ["n1".toList]⟩ : ProjectIdentifiableInfo),
         ⟨"v2".toList, "true".toList, ["n2".toList]⟩] := by
  refine ⟨by decide, rfl, ?_⟩
  have h := (rooster_C2_amended "update".toList "demo".toList "v2".toList
    [⟨"n2".toList⟩]
    ⟨⟨"demo".toList, [⟨"v1".toList, "true".toList, ["n1".toList, "n2".toList]⟩]⟩⟩
    (List.pairwise_singleton _ _) (by decide)).2
  exact h ⟨"demo".toList,
    [⟨"v1".toList, "false".toList, ["n1".toList]⟩,
     ⟨"v2".toList, "true".toList, ["n2".toList]⟩]⟩ rfl

end Rooster
